import Mathlib

/-!
Verification of the submission-integrity protocol implemented in
`python-client/submit_example.py`: canonical JSON payload construction
(`json.dumps(payload, sort_keys=True, separators=(',',':'))`), streaming
SHA-256 artifact hashing (`sha256_file`), the reproducibility-package
builder (`build_repro_package`), and the submission pipeline
(`submit_example`).  Python byte strings are modelled as `List Nat`,
text as `List Char`/`String`, JSON values as the inductive `JVal`, and
finite Python floats by their shortest decimal representation `PyFloat`
(the form CPython's `repr` prints).
-/

/-! ### Decimal digits -/

/-- Digit value `0`–`9` to its ASCII character, as CPython prints decimal
integers; values `≥ 10` never occur and default to `'0'`. -/
def toDigitChar : Nat → Char
  | 0 => '0' | 1 => '1' | 2 => '2' | 3 => '3' | 4 => '4'
  | 5 => '5' | 6 => '6' | 7 => '7' | 8 => '8' | 9 => '9'
  | _ => '0'

/-- ASCII digit character back to its value; non-digits default to `0`. -/
def fromDigitChar : Char → Nat
  | '0' => 0 | '1' => 1 | '2' => 2 | '3' => 3 | '4' => 4
  | '5' => 5 | '6' => 6 | '7' => 7 | '8' => 8 | '9' => 9
  | _ => 0

/-- Little-endian base-10 digits of `n`, with `fuel` bounding the recursion
(`fuel = n` always suffices). -/
def natDigitsAux : Nat → Nat → List Nat
  | 0, _ => []
  | _ + 1, 0 => []
  | fuel + 1, n + 1 => ((n + 1) % 10) :: natDigitsAux fuel ((n + 1) / 10)

/-- Little-endian base-10 digits of `n` (empty for `0`). -/
def natDigits (n : Nat) : List Nat := natDigitsAux n n

/-- Value of a little-endian digit list. -/
def fromDigitsLE : List Nat → Nat :=
  List.foldr (fun d acc => d + 10 * acc) 0

/-- Decimal representation of a natural number, as CPython's `repr`. -/
def charDigits (n : Nat) : List Char :=
  if n = 0 then ['0'] else (natDigits n).reverse.map toDigitChar

/-- Decimal representation of a Python integer: optional `'-'` sign
followed by the digits of the absolute value. -/
def intRepr (n : Int) : List Char :=
  if n < 0 then '-' :: charDigits n.natAbs else charDigits n.natAbs

theorem natDigitsAux_eq (fuel n : Nat) (h : n ≤ fuel) :
    natDigitsAux fuel n = natDigits n := by
  induction fuel using Nat.strong_induction_on generalizing n with
  | _ fuel ih =>
    match fuel, n with
    | 0, n =>
      interval_cases n
      rfl
    | fuel + 1, 0 => rfl
    | fuel + 1, n + 1 =>
      have hlt : (n + 1) / 10 ≤ fuel := by omega
      have hlt2 : (n + 1) / 10 ≤ n := by omega
      show _ :: natDigitsAux fuel ((n + 1) / 10)
          = _ :: natDigitsAux n ((n + 1) / 10)
      rw [ih fuel (by omega) _ hlt, natDigits,
        ih n (by omega) _ hlt2, natDigits]

theorem natDigits_succ (n : Nat) (h : n ≠ 0) :
    natDigits n = (n % 10) :: natDigits (n / 10) := by
  match n, h with
  | n + 1, _ =>
    show natDigitsAux (n + 1) (n + 1) = _
    show _ :: natDigitsAux n ((n + 1) / 10) = _
    rw [natDigitsAux_eq n ((n+1)/10) (by omega)]

theorem fromDigitsLE_natDigits (n : Nat) : fromDigitsLE (natDigits n) = n := by
  induction n using Nat.strong_induction_on with
  | _ n ih =>
    by_cases h : n = 0
    · subst h; rfl
    · rw [natDigits_succ n h]
      show n % 10 + 10 * fromDigitsLE (natDigits (n / 10)) = n
      rw [ih (n / 10) (by omega)]
      omega

theorem natDigits_lt (n : Nat) : ∀ d ∈ natDigits n, d < 10 := by
  induction n using Nat.strong_induction_on with
  | _ n ih =>
    by_cases h : n = 0
    · subst h; intro d hd; simp [natDigits, natDigitsAux] at hd
    · rw [natDigits_succ n h]
      intro d hd
      rcases List.mem_cons.mp hd with h1 | h1
      · omega
      · exact ih (n / 10) (by omega) d h1

theorem fromDigitChar_toDigitChar (d : Nat) (h : d < 10) :
    fromDigitChar (toDigitChar d) = d := by
  interval_cases d <;> rfl

theorem toDigitChar_isDigit (d : Nat) : (toDigitChar d).isDigit = true := by
  unfold toDigitChar
  split <;> rfl

theorem charDigits_ne_nil (n : Nat) : charDigits n ≠ [] := by
  unfold charDigits
  split
  · simp
  · intro h
    have h2 : natDigits n ≠ [] := by
      intro h3
      have := fromDigitsLE_natDigits n
      rw [h3] at this
      simp [fromDigitsLE] at this
      omega
    simp at h
    exact h2 h

theorem charDigits_isDigit (n : Nat) : ∀ c ∈ charDigits n, c.isDigit = true := by
  intro c hc
  unfold charDigits at hc
  split at hc
  · rcases List.mem_singleton.mp hc with h; subst h; rfl
  · rcases List.mem_map.mp hc with ⟨d, _, hd2⟩
    subst hd2
    exact toDigitChar_isDigit d

/-- Decode a big-endian decimal digit-character list (the inverse direction
of `charDigits`, tolerant of leading zeros). -/
def decDigitsBE (cs : List Char) : Nat := fromDigitsLE (cs.reverse.map fromDigitChar)

theorem fromDigitsLE_append (l₁ l₂ : List Nat) :
    fromDigitsLE (l₁ ++ l₂) = fromDigitsLE l₁ + 10 ^ l₁.length * fromDigitsLE l₂ := by
  induction l₁ with
  | nil => simp [fromDigitsLE]
  | cons d l ih =>
    show d + 10 * fromDigitsLE (l ++ l₂) = (d + 10 * fromDigitsLE l) + _
    rw [ih]
    simp only [List.length_cons, pow_succ]
    ring

theorem decDigitsBE_charDigits (n : Nat) : decDigitsBE (charDigits n) = n := by
  unfold decDigitsBE charDigits
  split
  · subst n; rfl
  · simp only [List.map_reverse, List.reverse_reverse, List.map_map]
    have : (natDigits n).map (fromDigitChar ∘ toDigitChar) = natDigits n := by
      conv_rhs => rw [← List.map_id (natDigits n)]
      apply List.map_congr_left
      intro d hd
      exact fromDigitChar_toDigitChar d (natDigits_lt n d hd)
    rw [this, fromDigitsLE_natDigits]

theorem decDigitsBE_append_zeros (cs : List Char) (j : Nat) :
    decDigitsBE (cs ++ List.replicate j '0') = decDigitsBE cs * 10 ^ j := by
  unfold decDigitsBE
  rw [List.reverse_append, List.map_append, fromDigitsLE_append]
  have h0 : fromDigitsLE ((List.replicate j '0').reverse.map fromDigitChar) = 0 := by
    rw [List.reverse_replicate, List.map_replicate]
    show fromDigitsLE (List.replicate j 0) = 0
    induction j with
    | zero => rfl
    | succ j ih =>
      show (0 : Nat) + 10 * fromDigitsLE (List.replicate j 0) = 0
      rw [ih]
  rw [h0]
  simp [mul_comm]

theorem decDigitsBE_cons_zero (cs : List Char) :
    decDigitsBE ('0' :: cs) = decDigitsBE cs := by
  unfold decDigitsBE
  rw [List.reverse_cons, List.map_append, fromDigitsLE_append]
  simp [fromDigitChar, fromDigitsLE]

/-! ### Python floats

A finite Python float is identified by the shortest decimal form that
CPython's `repr` prints: sign, decimal mantissa and decimal exponent,
value `(-1)^neg * mant * 10^dexp`.  `json.dumps` serializes a float with
`float.__repr__`, which uses positional notation when the scientific
exponent `E` (`value = d.ddd * 10^E`) satisfies `-4 ≤ E ≤ 15` and
scientific notation (`1e-07`, `9.5e+16`) otherwise. -/

structure PyFloat where
  neg : Bool
  mant : Nat
  dexp : Int
deriving DecidableEq

/-- A `PyFloat` is well formed when it is the canonical shortest form:
the mantissa carries no trailing decimal zeros, and zero has exponent 0. -/
def wfF (f : PyFloat) : Bool :=
  (f.mant == 0 && f.dexp == 0) || (f.mant % 10 != 0)

/-- Scientific exponent `E` of a float: `value = d₁.d₂… × 10^E`. -/
def sciExp (f : PyFloat) : Int :=
  f.dexp + (charDigits f.mant).length - 1

/-- Mantissa digits in scientific notation: `d` or `d.ddd`. -/
def sciMantPart (D : List Char) : List Char :=
  match D with
  | [d] => [d]
  | d :: rest => d :: '.' :: rest
  | [] => []

/-- Exponent suffix of scientific notation: `e` then sign then at least two
digits (`e-07`, `e+16`, `e-100`), as CPython prints it. -/
def expPart (E : Int) : List Char :=
  'e' :: (if E < 0 then '-' else '+') ::
    (if E.natAbs < 10 then '0' :: charDigits E.natAbs else charDigits E.natAbs)

/-- Positional (non-scientific) rendering of digits `D` with scientific
exponent `E`: `dddd0.0`, `dd.dd`, or `0.00dd`. -/
def fixPart (D : List Char) (E : Int) : List Char :=
  if 0 ≤ E then
    if (D.length : Int) ≤ E + 1 then
      D ++ List.replicate (E + 1 - D.length).toNat '0' ++ ['.', '0']
    else D.take (E + 1).toNat ++ '.' :: D.drop (E + 1).toNat
  else '0' :: '.' :: List.replicate (-E - 1).toNat '0' ++ D

/-- Digits of `repr` of the absolute value of a float, following CPython's
`format_float_short` with mode `'r'` and `Py_DTSF_ADD_DOT_0`: scientific
notation exactly when the scientific exponent is `< -4` or `≥ 16`. -/
def floatMag (f : PyFloat) : List Char :=
  if sciExp f < -4 ∨ 16 ≤ sciExp f then
    sciMantPart (charDigits f.mant) ++ expPart (sciExp f)
  else fixPart (charDigits f.mant) (sciExp f)

/-- CPython `repr` of a finite float: sign then magnitude. -/
def floatRepr (f : PyFloat) : List Char :=
  if f.neg then '-' :: floatMag f else floatMag f

/-- Strip factors of ten from a mantissa, returning the stripped mantissa
and the count of stripped zeros; `fuel` bounds recursion (`fuel = m` works). -/
def stripTensAux : Nat → Nat → Nat × Nat
  | 0, m => (m, 0)
  | fuel + 1, m =>
    if m % 10 = 0 ∧ m ≠ 0 then
      let p := stripTensAux fuel (m / 10)
      (p.1, p.2 + 1)
    else (m, 0)

/-- Bring a decoded sign/mantissa/exponent triple to canonical form. -/
def normF (neg : Bool) (m : Nat) (d : Int) : PyFloat :=
  if m = 0 then ⟨neg, 0, 0⟩
  else
    let p := stripTensAux m m
    ⟨neg, p.1, d + p.2⟩

theorem stripTensAux_not_dvd (fuel m : Nat) (h : ¬ (10 ∣ m)) :
    stripTensAux fuel m = (m, 0) := by
  cases fuel with
  | zero => rfl
  | succ fuel =>
    unfold stripTensAux
    rw [if_neg]
    intro ⟨h1, _⟩
    exact h (Nat.dvd_of_mod_eq_zero h1)

theorem stripTensAux_pow (fuel m j : Nat) (hm : ¬ (10 ∣ m)) (hm0 : m ≠ 0)
    (hf : m * 10 ^ j ≤ fuel) :
    stripTensAux fuel (m * 10 ^ j) = (m, j) := by
  induction j generalizing fuel with
  | zero =>
    simp only [pow_zero, mul_one]
    exact stripTensAux_not_dvd fuel m hm
  | succ j ih =>
    have hpos : 0 < m * 10 ^ (j + 1) := by positivity
    cases fuel with
    | zero => omega
    | succ fuel =>
      have hcond : m * 10 ^ (j + 1) % 10 = 0 ∧ m * 10 ^ (j + 1) ≠ 0 := by
        constructor
        · rw [pow_succ, ← mul_assoc]
          exact Nat.mul_mod_left _ 10
        · omega
      have hdiv : m * 10 ^ (j + 1) / 10 = m * 10 ^ j := by
        rw [pow_succ, ← mul_assoc]
        exact Nat.mul_div_cancel _ (by norm_num)
      have hle : m * 10 ^ j ≤ fuel := by
        have h1 : m * 10 ^ (j + 1) = m * 10 ^ j * 10 := by ring
        have h2 : 0 < m * 10 ^ j := by positivity
        omega
      unfold stripTensAux
      rw [if_pos hcond, hdiv, ih fuel hle]

theorem normF_wf (neg : Bool) (m : Nat) (d : Int) (h : wfF ⟨neg, m, d⟩ = true) :
    normF neg m d = ⟨neg, m, d⟩ := by
  by_cases hm : m = 0
  · subst hm
    have hd : d = 0 := by simpa [wfF] using h
    subst hd
    rfl
  · have hnd : ¬ (10 ∣ m) := by
      have h2 : m % 10 ≠ 0 := by simpa [wfF, hm] using h
      intro hdvd
      obtain ⟨c, rfl⟩ := hdvd
      exact h2 (Nat.mul_mod_right 10 c)
    unfold normF
    rw [if_neg hm, stripTensAux_not_dvd m m hnd]
    simp

theorem normF_pow (neg : Bool) (m : Nat) (d : Int) (j : Nat)
    (hm : ¬ (10 ∣ m)) (h0 : m ≠ 0) :
    normF neg (m * 10 ^ j) d = ⟨neg, m, d + j⟩ := by
  unfold normF
  have hpos : m * 10 ^ j ≠ 0 := by positivity
  rw [if_neg hpos, stripTensAux_pow _ m j hm h0 (le_refl _)]

/-- Digit characters of a positional mantissa: part before the decimal
point and part after it, concatenated. -/
def numDigitsOf (mantCs : List Char) : List Char :=
  mantCs.takeWhile (fun c => c != '.') ++ (mantCs.dropWhile (fun c => c != '.')).drop 1

/-- Number of digits after the decimal point of a positional mantissa. -/
def fracLen (mantCs : List Char) : Nat :=
  ((mantCs.dropWhile (fun c => c != '.')).drop 1).length

/-- Value of the exponent suffix (`e±dd`), zero when absent; only ever
applied to `[]` or to suffixes produced by `expPart`. -/
def expVal : List Char → Int
  | _ :: s :: ds => if s = '-' then -(decDigitsBE ds : Int) else (decDigitsBE ds : Int)
  | _ => 0

/-- Decode the magnitude part of a CPython float `repr` back to the
canonical `PyFloat`; left inverse of `floatMag` on well-formed floats. -/
def decodeFloatMag (neg : Bool) (cs : List Char) : PyFloat :=
  normF neg
    (decDigitsBE (numDigitsOf (cs.takeWhile (fun c => c != 'e'))))
    (expVal (cs.dropWhile (fun c => c != 'e')) - fracLen (cs.takeWhile (fun c => c != 'e')))

theorem takeWhile_append_all {p : Char → Bool} (xs ys : List Char)
    (h : ∀ x ∈ xs, p x = true) :
    (xs ++ ys).takeWhile p = xs ++ ys.takeWhile p := by
  induction xs with
  | nil => simp
  | cons c cs ih =>
    have hc : p c = true := h c (List.mem_cons_self c cs)
    simp only [List.cons_append, List.takeWhile_cons, hc, if_true]
    rw [ih (fun x hx => h x (List.mem_cons_of_mem c hx))]

theorem dropWhile_append_all {p : Char → Bool} (xs ys : List Char)
    (h : ∀ x ∈ xs, p x = true) :
    (xs ++ ys).dropWhile p = ys.dropWhile p := by
  induction xs with
  | nil => simp
  | cons c cs ih =>
    have hc : p c = true := h c (List.mem_cons_self c cs)
    simp only [List.cons_append, List.dropWhile_cons, hc, if_true]
    exact ih (fun x hx => h x (List.mem_cons_of_mem c hx))

theorem takeWhile_all {p : Char → Bool} (xs : List Char)
    (h : ∀ x ∈ xs, p x = true) : xs.takeWhile p = xs := by
  have := takeWhile_append_all xs [] h
  simpa using this

theorem dropWhile_all {p : Char → Bool} (xs : List Char)
    (h : ∀ x ∈ xs, p x = true) : xs.dropWhile p = [] := by
  have := dropWhile_append_all xs [] h
  simpa using this

theorem isDigit_ne_e (c : Char) (h : c.isDigit = true) : (c != 'e') = true := by
  cases hc : c == 'e'
  · simp [bne, hc]
  · exfalso
    rw [eq_of_beq hc] at h
    exact absurd h (by decide)

theorem isDigit_ne_dot (c : Char) (h : c.isDigit = true) : (c != '.') = true := by
  cases hc : c == '.'
  · simp [bne, hc]
  · exfalso
    rw [eq_of_beq hc] at h
    exact absurd h (by decide)

theorem decDigitsBE_zeros_prepend (j : Nat) (cs : List Char) :
    decDigitsBE (List.replicate j '0' ++ cs) = decDigitsBE cs := by
  induction j with
  | zero => simp
  | succ j ih =>
    rw [List.replicate_succ, List.cons_append, decDigitsBE_cons_zero, ih]

theorem decDigitsBE_pad (n : Nat) :
    decDigitsBE (if n < 10 then '0' :: charDigits n else charDigits n) = n := by
  split
  · rw [decDigitsBE_cons_zero, decDigitsBE_charDigits]
  · rw [decDigitsBE_charDigits]

theorem expVal_expPart (E : Int) : expVal (expPart E) = E := by
  unfold expPart
  by_cases hE : E < 0
  · rw [if_pos hE]
    show (if '-' = '-'
        then -(decDigitsBE (if E.natAbs < 10 then '0' :: charDigits E.natAbs
          else charDigits E.natAbs) : Int)
        else (decDigitsBE (if E.natAbs < 10 then '0' :: charDigits E.natAbs
          else charDigits E.natAbs) : Int)) = E
    rw [if_pos rfl, decDigitsBE_pad]
    omega
  · rw [if_neg hE]
    show (if '+' = '-'
        then -(decDigitsBE (if E.natAbs < 10 then '0' :: charDigits E.natAbs
          else charDigits E.natAbs) : Int)
        else (decDigitsBE (if E.natAbs < 10 then '0' :: charDigits E.natAbs
          else charDigits E.natAbs) : Int)) = E
    rw [if_neg (by decide), decDigitsBE_pad]
    omega

theorem expPart_head (E : Int) : ∃ tl, expPart E = 'e' :: tl := ⟨_, rfl⟩

theorem sciMantPart_ne_e (D : List Char) (hD : ∀ c ∈ D, c.isDigit = true) :
    ∀ c ∈ sciMantPart D, (c != 'e') = true := by
  intro c hc
  match D, hD with
  | [], _ => simp [sciMantPart] at hc
  | [d], hD =>
    simp only [sciMantPart] at hc
    rcases List.mem_singleton.mp hc with rfl
    exact isDigit_ne_e c (hD c (by simp))
  | d :: r :: rs, hD =>
    simp only [sciMantPart] at hc
    rcases List.mem_cons.mp hc with rfl | hc2
    · exact isDigit_ne_e c (hD c (by simp))
    · rcases List.mem_cons.mp hc2 with rfl | hc3
      · decide
      · exact isDigit_ne_e c (hD c (by simp [hc3]))

theorem numDigitsOf_sciMantPart (D : List Char) (hD : ∀ c ∈ D, c.isDigit = true)
    (hne : D ≠ []) :
    numDigitsOf (sciMantPart D) = D ∧ fracLen (sciMantPart D) = D.length - 1 := by
  match D, hD, hne with
  | [d], hD, _ =>
    have hd : (d != '.') = true := isDigit_ne_dot d (hD d (by simp))
    constructor
    · simp [numDigitsOf, sciMantPart, List.takeWhile_cons, List.dropWhile_cons, hd]
    · simp [fracLen, sciMantPart, List.dropWhile_cons, hd]
  | d :: r :: rs, hD, _ =>
    have hd : (d != '.') = true := isDigit_ne_dot d (hD d (by simp))
    constructor
    · simp [numDigitsOf, sciMantPart, List.takeWhile_cons, List.dropWhile_cons, hd]
    · simp [fracLen, sciMantPart, List.dropWhile_cons, hd]

theorem decodeFloatMag_floatMag (neg : Bool) (f : PyFloat) (h : wfF f = true) :
    decodeFloatMag neg (floatMag f) = ⟨neg, f.mant, f.dexp⟩ := by
  obtain ⟨fn, m, d⟩ := f
  by_cases hm : m = 0
  · subst hm
    have hd : d = 0 := by simpa [wfF] using h
    subst hd
    rfl
  · have hmod : m % 10 ≠ 0 := by simpa [wfF, hm] using h
    have hnd : ¬ (10 ∣ m) := by
      intro hdvd; obtain ⟨c, rfl⟩ := hdvd; exact hmod (Nat.mul_mod_right 10 c)
    have hwfAny : ∀ d' : Int, wfF ⟨neg, m, d'⟩ = true := by
      intro d'
      simp [wfF, hmod]
    have hD : ∀ c ∈ charDigits m, c.isDigit = true := charDigits_isDigit m
    have hk : 1 ≤ (charDigits m).length :=
      List.length_pos.mpr (charDigits_ne_nil m)
    have hEdef : sciExp ⟨fn, m, d⟩ = d + (charDigits m).length - 1 := rfl
    unfold floatMag
    dsimp only
    by_cases hsci : sciExp ⟨fn, m, d⟩ < -4 ∨ 16 ≤ sciExp ⟨fn, m, d⟩
    · rw [if_pos hsci]
      have hmne : ∀ c ∈ sciMantPart (charDigits m), (c != 'e') = true :=
        sciMantPart_ne_e (charDigits m) hD
      unfold decodeFloatMag
      rw [takeWhile_append_all _ _ hmne, dropWhile_append_all _ _ hmne]
      have hexp1 : (expPart (sciExp ⟨fn, m, d⟩)).takeWhile (fun c => c != 'e') = [] := by
        unfold expPart
        simp [List.takeWhile_cons]
      have hexp2 : (expPart (sciExp ⟨fn, m, d⟩)).dropWhile (fun c => c != 'e')
          = expPart (sciExp ⟨fn, m, d⟩) := by
        unfold expPart
        simp [List.dropWhile_cons]
      rw [hexp1, hexp2, List.append_nil, expVal_expPart]
      obtain ⟨hnum, hfrac⟩ :=
        numDigitsOf_sciMantPart (charDigits m) hD (charDigits_ne_nil m)
      rw [hnum, hfrac, decDigitsBE_charDigits]
      rw [normF_wf neg m _ (hwfAny _)]
      apply congrArg (PyFloat.mk neg m)
      rw [hEdef]
      omega
    · rw [if_neg hsci]
      push_neg at hsci
      unfold fixPart
      by_cases hpos : 0 ≤ sciExp ⟨fn, m, d⟩
      · rw [if_pos hpos]
        by_cases hlen : ((charDigits m).length : Int) ≤ sciExp ⟨fn, m, d⟩ + 1
        · rw [if_pos hlen]
          have hall : ∀ c ∈ (charDigits m ++
              List.replicate (sciExp ⟨fn, m, d⟩ + 1 - (charDigits m).length).toNat '0')
              ++ ['.', '0'], (c != 'e') = true := by
            intro c hc
            rcases List.mem_append.mp hc with hc1 | hc2
            · rcases List.mem_append.mp hc1 with hc3 | hc4
              · exact isDigit_ne_e c (hD c hc3)
              · rw [List.eq_of_mem_replicate hc4]; decide
            · rcases List.mem_cons.mp hc2 with rfl | hc5
              · decide
              · rcases List.mem_singleton.mp hc5 with rfl; decide
          unfold decodeFloatMag
          rw [takeWhile_all _ hall, dropWhile_all _ hall]
          have hdot : ∀ c ∈ charDigits m ++
              List.replicate (sciExp ⟨fn, m, d⟩ + 1 - (charDigits m).length).toNat '0',
              (c != '.') = true := by
            intro c hc
            rcases List.mem_append.mp hc with hc1 | hc2
            · exact isDigit_ne_dot c (hD c hc1)
            · rw [List.eq_of_mem_replicate hc2]; decide
          unfold numDigitsOf fracLen
          rw [takeWhile_append_all _ _ hdot, dropWhile_append_all _ _ hdot]
          have ht : (['.', '0'] : List Char).takeWhile (fun c => c != '.') = [] := by decide
          have hw : (['.', '0'] : List Char).dropWhile (fun c => c != '.') = ['.', '0'] := by
            decide
          rw [ht, hw, List.append_nil]
          show normF neg (decDigitsBE ((charDigits m ++ List.replicate _ '0') ++ ['0']))
              (expVal [] - (1 : Nat)) = _
          rw [List.append_assoc, ← List.replicate_succ' _ '0']
          rw [decDigitsBE_append_zeros, decDigitsBE_charDigits]
          rw [normF_pow neg m _ _ hnd hm]
          apply congrArg (PyFloat.mk neg m)
          have hev : expVal [] = 0 := rfl
          rw [hev]
          rw [hEdef] at hlen hpos ⊢
          omega
        · rw [if_neg hlen]
          have hall : ∀ c ∈ (charDigits m).take (sciExp ⟨fn, m, d⟩ + 1).toNat
              ++ '.' :: (charDigits m).drop (sciExp ⟨fn, m, d⟩ + 1).toNat,
              (c != 'e') = true := by
            intro c hc
            rcases List.mem_append.mp hc with hc1 | hc2
            · exact isDigit_ne_e c (hD c (List.mem_of_mem_take hc1))
            · rcases List.mem_cons.mp hc2 with rfl | hc3
              · decide
              · exact isDigit_ne_e c (hD c (List.mem_of_mem_drop hc3))
          unfold decodeFloatMag
          rw [takeWhile_all _ hall, dropWhile_all _ hall]
          have hdot : ∀ c ∈ (charDigits m).take (sciExp ⟨fn, m, d⟩ + 1).toNat,
              (c != '.') = true := by
            intro c hc
            exact isDigit_ne_dot c (hD c (List.mem_of_mem_take hc))
          unfold numDigitsOf fracLen
          rw [takeWhile_append_all _ _ hdot, dropWhile_append_all _ _ hdot]
          have ht : ('.' :: (charDigits m).drop (sciExp ⟨fn, m, d⟩ + 1).toNat).takeWhile
              (fun c => c != '.') = [] := by
            simp [List.takeWhile_cons]
          have hw : ('.' :: (charDigits m).drop (sciExp ⟨fn, m, d⟩ + 1).toNat).dropWhile
              (fun c => c != '.') = '.' :: (charDigits m).drop (sciExp ⟨fn, m, d⟩ + 1).toNat := by
            simp [List.dropWhile_cons]
          rw [ht, hw, List.append_nil]
          show normF neg (decDigitsBE ((charDigits m).take _ ++ (charDigits m).drop _))
              (expVal [] - ((charDigits m).drop _).length) = _
          rw [List.take_append_drop, decDigitsBE_charDigits]
          rw [normF_wf neg m _ (hwfAny _)]
          apply congrArg (PyFloat.mk neg m)
          have hev : expVal [] = 0 := rfl
          rw [hev, List.length_drop]
          rw [hEdef] at hlen hpos ⊢
          omega
      · rw [if_neg hpos]
        simp only [List.cons_append]
        have hall : ∀ c ∈ ('0' :: '.' ::
            (List.replicate (-sciExp ⟨fn, m, d⟩ - 1).toNat '0' ++ charDigits m)),
            (c != 'e') = true := by
          intro c hc
          rcases List.mem_cons.mp hc with rfl | hc1
          · decide
          · rcases List.mem_cons.mp hc1 with rfl | hc2
            · decide
            · rcases List.mem_append.mp hc2 with hc3 | hc4
              · rw [List.eq_of_mem_replicate hc3]; decide
              · exact isDigit_ne_e c (hD c hc4)
        unfold decodeFloatMag
        rw [takeWhile_all _ hall, dropWhile_all _ hall]
        unfold numDigitsOf fracLen
        have ht : (('0' : Char) :: '.' ::
            (List.replicate (-sciExp ⟨fn, m, d⟩ - 1).toNat '0' ++ charDigits m)).takeWhile
            (fun c => c != '.') = ['0'] := by
          simp [List.takeWhile_cons]
        have hw : (('0' : Char) :: '.' ::
            (List.replicate (-sciExp ⟨fn, m, d⟩ - 1).toNat '0' ++ charDigits m)).dropWhile
            (fun c => c != '.') = '.' ::
            (List.replicate (-sciExp ⟨fn, m, d⟩ - 1).toNat '0' ++ charDigits m) := by
          simp [List.dropWhile_cons]
        rw [ht, hw]
        have hdrop : (('.' : Char) ::
            (List.replicate (-sciExp ⟨fn, m, d⟩ - 1).toNat '0' ++ charDigits m)).drop 1
            = List.replicate (-sciExp ⟨fn, m, d⟩ - 1).toNat '0' ++ charDigits m := rfl
        rw [hdrop]
        simp only [List.singleton_append]
        rw [decDigitsBE_cons_zero, decDigitsBE_zeros_prepend, decDigitsBE_charDigits]
        rw [normF_wf neg m _ (hwfAny _)]
        apply congrArg (PyFloat.mk neg m)
        have hev : expVal [] = 0 := rfl
        rw [hev, List.length_append, List.length_replicate]
        rw [hEdef] at hpos ⊢
        omega

/-! ### JSON values

The values `json.dumps` can serialize, as they occur in the submission
payload: `null`, booleans, arbitrary-precision integers, finite floats,
strings, lists, and string-keyed objects (association lists in insertion
order, the way a Python `dict` iterates). -/

inductive JVal where
  | jnull : JVal
  | jbool (b : Bool) : JVal
  | jint (n : Int) : JVal
  | jfloat (f : PyFloat) : JVal
  | jstr (s : String) : JVal
  | jarr (xs : List JVal) : JVal
  | jobj (kvs : List (String × JVal)) : JVal

/-- Hex digit to its lowercase character, as `\uXXXX` escapes print it. -/
def toHexChar : Nat → Char
  | 0 => '0' | 1 => '1' | 2 => '2' | 3 => '3' | 4 => '4' | 5 => '5'
  | 6 => '6' | 7 => '7' | 8 => '8' | 9 => '9' | 10 => 'a' | 11 => 'b'
  | 12 => 'c' | 13 => 'd' | 14 => 'e' | 15 => 'f' | _ => '0'

/-- Lowercase hex character back to its value. -/
def fromHexChar : Char → Nat
  | '0' => 0 | '1' => 1 | '2' => 2 | '3' => 3 | '4' => 4 | '5' => 5
  | '6' => 6 | '7' => 7 | '8' => 8 | '9' => 9 | 'a' => 10 | 'b' => 11
  | 'c' => 12 | 'd' => 13 | 'e' => 14 | 'f' => 15 | _ => 0

/-- A lowercase hexadecimal digit, `0`-`9` or `a`-`f`. -/
def isLowerHex (c : Char) : Bool := c.isDigit || ('a' ≤ c && c ≤ 'f')

/-- Four lowercase hex digits of a value `< 0x10000`. -/
def hex4 (n : Nat) : List Char :=
  [toHexChar (n / 4096 % 16), toHexChar (n / 256 % 16),
   toHexChar (n / 16 % 16), toHexChar (n % 16)]

/-- Value of four hex digits. -/
def unhex4 (a b c d : Char) : Nat :=
  fromHexChar a * 4096 + fromHexChar b * 256 + fromHexChar c * 16 + fromHexChar d

/-- Escape of one character following CPython's
`json.encoder.c_encode_basestring_ascii` (the `ensure_ascii=True` default):
short escapes for `"\\\n\r\t\b\f`, printable ASCII kept literal, everything
else as `\uXXXX`, with a UTF-16 surrogate pair above `0xFFFF`. -/
def escChar (c : Char) : List Char :=
  if c = '"' then ['\\', '"']
  else if c = '\\' then ['\\', '\\']
  else if c = '\n' then ['\\', 'n']
  else if c = '\r' then ['\\', 'r']
  else if c = '\t' then ['\\', 't']
  else if c.toNat = 8 then ['\\', 'b']
  else if c.toNat = 12 then ['\\', 'f']
  else if 0x20 ≤ c.toNat ∧ c.toNat ≤ 0x7e then [c]
  else if c.toNat < 0x10000 then '\\' :: 'u' :: hex4 c.toNat
  else ('\\' :: 'u' :: hex4 (0xd800 + (c.toNat - 0x10000) / 1024)) ++
    ('\\' :: 'u' :: hex4 (0xdc00 + (c.toNat - 0x10000) % 1024))

/-- JSON serialization of a string: quote, escaped characters, quote. -/
def serStr (s : String) : List Char :=
  '"' :: s.data.flatMap escChar ++ ['"']

mutual
/-- JSON serialization of a value with explicit item and key separators
(`json.dumps` with `separators=(isep, ksep)`), keys in the given order. -/
def serV (isep ksep : List Char) : JVal → List Char
  | .jnull => ['n', 'u', 'l', 'l']
  | .jbool true => ['t', 'r', 'u', 'e']
  | .jbool false => ['f', 'a', 'l', 's', 'e']
  | .jint n => intRepr n
  | .jfloat f => floatRepr f
  | .jstr s => serStr s
  | .jarr xs => '[' :: serArr isep ksep xs ++ [']']
  | .jobj kvs => '{' :: serObj isep ksep kvs ++ ['}']

/-- Array elements joined by the item separator. -/
def serArr (isep ksep : List Char) : List JVal → List Char
  | [] => []
  | [x] => serV isep ksep x
  | x :: y :: xs => serV isep ksep x ++ isep ++ serArr isep ksep (y :: xs)

/-- Object entries (`key ksep value`) joined by the item separator. -/
def serObj (isep ksep : List Char) : List (String × JVal) → List Char
  | [] => []
  | [(k, v)] => serStr k ++ ksep ++ serV isep ksep v
  | (k, v) :: p :: kvs =>
    serStr k ++ ksep ++ serV isep ksep v ++ isep ++ serObj isep ksep (p :: kvs)
end

/-- Python string `<=`: lexicographic comparison by code point. -/
def charListLe : List Char → List Char → Bool
  | [], _ => true
  | _ :: _, [] => false
  | a :: as, b :: bs =>
    if a.toNat < b.toNat then true
    else if a.toNat = b.toNat then charListLe as bs
    else false

/-- Order on object entries used by `sorted(dict.items())`: compare keys
(with unique keys the tuple comparison never reaches the values). -/
def keyLe (p q : String × JVal) : Prop := charListLe p.1.data q.1.data = true

instance : DecidableRel keyLe := fun p q =>
  inferInstanceAs (Decidable (_ = true))

mutual
/-- Recursively sort every object's entries by key, the effect of
`json.dumps(..., sort_keys=True)` on the tree. -/
def sortAll : JVal → JVal
  | .jnull => .jnull
  | .jbool b => .jbool b
  | .jint n => .jint n
  | .jfloat f => .jfloat f
  | .jstr s => .jstr s
  | .jarr xs => .jarr (sortAllArr xs)
  | .jobj kvs => .jobj (List.insertionSort keyLe (sortAllObj kvs))

/-- `sortAll` mapped over array elements. -/
def sortAllArr : List JVal → List JVal
  | [] => []
  | x :: xs => sortAll x :: sortAllArr xs

/-- `sortAll` mapped over object entry values. -/
def sortAllObj : List (String × JVal) → List (String × JVal)
  | [] => []
  | (k, v) :: kvs => (k, sortAll v) :: sortAllObj kvs
end

/-- Canonical serialization of `sign_payload`:
`json.dumps(payload, sort_keys=True, separators=(',', ':'))`. -/
def canonSer (v : JVal) : List Char := serV [','] [':'] (sortAll v)

/-- Message actually signed by `sign_payload(sk, payload)` (its UTF-8
encoding; canonical output is pure ASCII, so characters are bytes). -/
def sign_payload_msg (payload : JVal) : List Char := canonSer payload

/-- Wire serialization of the payload part in `submit_example`:
`json.dumps(payload)` with the default separators `(', ', ': ')` and the
dict's insertion order. -/
def dumpsDefault (v : JVal) : List Char := serV [',', ' '] [':', ' '] v

/-! ### SHA-256 (`hashlib.sha256`)

Words are naturals reduced mod `2^32`; byte streams are `List Nat`.
`Sha256Ctx` models the incremental `hashlib` object: compressed state,
buffered partial block, and total length consumed (as `update` behaves).
The one-shot digest `sha256hex` is FIPS 180-4 padding plus a fold of the
compression function over 64-byte blocks. -/

/-- Split off all maximal full `n`-blocks, carrying the partial block `acc`;
returns the blocks in order and the residue. -/
def splitFullAux {α : Type} (n : Nat) : List α → List α → List (List α) × List α
  | [], acc => ([], acc)
  | c :: cs, acc =>
    if acc.length + 1 = n then
      let r := splitFullAux n cs []
      ((acc ++ [c]) :: r.1, r.2)
    else splitFullAux n cs (acc ++ [c])

/-- Full `n`-blocks of a list and the remainder (`length < n`). -/
def splitFull {α : Type} (n : Nat) (l : List α) : List (List α) × List α :=
  splitFullAux n l []

theorem splitFullAux_nil {α : Type} (n : Nat) (acc : List α) :
    splitFullAux n ([] : List α) acc = ([], acc) := rfl

theorem splitFullAux_cons {α : Type} (n : Nat) (c : α) (cs acc : List α) :
    splitFullAux n (c :: cs) acc =
      if acc.length + 1 = n then
        ((acc ++ [c]) :: (splitFullAux n cs []).1, (splitFullAux n cs []).2)
      else splitFullAux n cs (acc ++ [c]) := rfl

theorem splitFullAux_append {α : Type} (n : Nat) (x : List α) (y acc : List α) :
    splitFullAux n (x ++ y) acc =
      ((splitFullAux n x acc).1 ++ (splitFullAux n y (splitFullAux n x acc).2).1,
       (splitFullAux n y (splitFullAux n x acc).2).2) := by
  induction x generalizing acc with
  | nil => simp [splitFullAux_nil]
  | cons c cs ih =>
    rw [List.cons_append, splitFullAux_cons, splitFullAux_cons]
    by_cases hc : acc.length + 1 = n
    · simp only [if_pos hc]
      rw [ih []]
      simp [List.cons_append]
    · simp only [if_neg hc]
      rw [ih (acc ++ [c])]

theorem splitFullAux_join {α : Type} (n : Nat) (l : List α) :
    ∀ acc : List α, (splitFullAux n l acc).1.flatten ++ (splitFullAux n l acc).2
      = acc ++ l := by
  induction l with
  | nil => intro acc; simp [splitFullAux_nil]
  | cons c cs ih =>
    intro acc
    rw [splitFullAux_cons]
    by_cases hc : acc.length + 1 = n
    · simp only [if_pos hc]
      show ((acc ++ [c]) ++ _) ++ _ = _
      rw [List.append_assoc, ih []]
      simp
    · simp only [if_neg hc]
      rw [ih (acc ++ [c])]
      simp

theorem splitFullAux_snd_lt {α : Type} (n : Nat) (hn : 0 < n) (l : List α) :
    ∀ acc : List α, acc.length < n → ((splitFullAux n l acc).2).length < n := by
  induction l with
  | nil => intro acc h; exact h
  | cons c cs ih =>
    intro acc h
    rw [splitFullAux_cons]
    by_cases hc : acc.length + 1 = n
    · simp only [if_pos hc]
      exact ih [] hn
    · simp only [if_neg hc]
      exact ih (acc ++ [c]) (by simp; omega)

theorem splitFullAux_front {α : Type} (n : Nat) (pre : List α) :
    ∀ (l₂ acc : List α), acc.length + pre.length < n →
      splitFullAux n (pre ++ l₂) acc = splitFullAux n l₂ (acc ++ pre) := by
  induction pre with
  | nil => intro l₂ acc _; simp
  | cons c cs ih =>
    intro l₂ acc h
    rw [List.cons_append, splitFullAux_cons]
    rw [if_neg (by simp at h ⊢; omega)]
    rw [ih l₂ (acc ++ [c]) (by simp at h ⊢; omega)]
    simp

/-- Right rotation of a 32-bit word. -/
def rotr (n x : Nat) : Nat := ((x >>> n) ||| (x <<< (32 - n))) % 2 ^ 32

/-- SHA-256 big sigma 0. -/
def bsig0 (x : Nat) : Nat := rotr 2 x ^^^ rotr 13 x ^^^ rotr 22 x

/-- SHA-256 big sigma 1. -/
def bsig1 (x : Nat) : Nat := rotr 6 x ^^^ rotr 11 x ^^^ rotr 25 x

/-- SHA-256 small sigma 0. -/
def ssig0 (x : Nat) : Nat := rotr 7 x ^^^ rotr 18 x ^^^ (x >>> 3)

/-- SHA-256 small sigma 1. -/
def ssig1 (x : Nat) : Nat := rotr 17 x ^^^ rotr 19 x ^^^ (x >>> 10)

/-- SHA-256 choose function (`~x` as xor with the 32-bit all-ones). -/
def chF (x y z : Nat) : Nat := (x &&& y) ^^^ ((x ^^^ 0xffffffff) &&& z)

/-- SHA-256 majority function. -/
def majF (x y z : Nat) : Nat := (x &&& y) ^^^ (x &&& z) ^^^ (y &&& z)

/-- SHA-256 round constants (FIPS 180-4 §4.2.2). -/
def K256 : List Nat :=
  [0x428a2f98, 0x71374491, 0xb5c0fbcf, 0xe9b5dba5, 0x3956c25b, 0x59f111f1, 0x923f82a4, 0xab1c5ed5] ++
  [0xd807aa98, 0x12835b01, 0x243185be, 0x550c7dc3, 0x72be5d74, 0x80deb1fe, 0x9bdc06a7, 0xc19bf174] ++
  [0xe49b69c1, 0xefbe4786, 0x0fc19dc6, 0x240ca1cc, 0x2de92c6f, 0x4a7484aa, 0x5cb0a9dc, 0x76f988da] ++
  [0x983e5152, 0xa831c66d, 0xb00327c8, 0xbf597fc7, 0xc6e00bf3, 0xd5a79147, 0x06ca6351, 0x14292967] ++
  [0x27b70a85, 0x2e1b2138, 0x4d2c6dfc, 0x53380d13, 0x650a7354, 0x766a0abb, 0x81c2c92e, 0x92722c85] ++
  [0xa2bfe8a1, 0xa81a664b, 0xc24b8b70, 0xc76c51a3, 0xd192e819, 0xd6990624, 0xf40e3585, 0x106aa070] ++
  [0x19a4c116, 0x1e376c08, 0x2748774c, 0x34b0bcb5, 0x391c0cb3, 0x4ed8aa4a, 0x5b9cca4f, 0x682e6ff3] ++
  [0x748f82ee, 0x78a5636f, 0x84c87814, 0x8cc70208, 0x90befffa, 0xa4506ceb, 0xbef9a3f7, 0xc67178f2]

/-- SHA-256 initial hash value (FIPS 180-4 §5.3.3). -/
def IV256 : List Nat :=
  [0x6a09e667, 0xbb67ae85, 0x3c6ef372, 0xa54ff53a,
   0x510e527f, 0x9b05688c, 0x1f83d9ab, 0x5be0cd19]

/-- Big-endian 32-bit words from bytes. -/
def bytesToWords : List Nat → List Nat
  | b0 :: b1 :: b2 :: b3 :: rest =>
    (((b0 * 256 + b1) * 256 + b2) * 256 + b3) :: bytesToWords rest
  | _ => []

/-- One extension step of the message schedule, appended to the right. -/
def extendW (w : List Nat) : Nat :=
  (ssig1 (w.getD (w.length - 2) 0) + w.getD (w.length - 7) 0 +
   ssig0 (w.getD (w.length - 15) 0) + w.getD (w.length - 16) 0) % 2 ^ 32

/-- The 64-entry message schedule from the 16 block words. -/
def sched (w16 : List Nat) : List Nat :=
  (List.range 48).foldl (fun w _ => w ++ [extendW w]) w16

/-- One SHA-256 round: state is the working-variable list `[a,…,h]`. -/
def roundStep (st : List Nat) (kw : Nat × Nat) : List Nat :=
  let a := st.getD 0 0
  let b := st.getD 1 0
  let c := st.getD 2 0
  let d := st.getD 3 0
  let e := st.getD 4 0
  let f := st.getD 5 0
  let g := st.getD 6 0
  let h := st.getD 7 0
  let t1 := (h + bsig1 e + chF e f g + kw.1 + kw.2) % 2 ^ 32
  let t2 := (bsig0 a + majF a b c) % 2 ^ 32
  [(t1 + t2) % 2 ^ 32, a, b, c, (d + t1) % 2 ^ 32, e, f, g]

/-- SHA-256 compression of one 64-byte block into the hash state. -/
def compress (h : List Nat) (block : List Nat) : List Nat :=
  let st := (K256.zip (sched (bytesToWords block))).foldl roundStep h
  [(h.getD 0 0 + st.getD 0 0) % 2 ^ 32, (h.getD 1 0 + st.getD 1 0) % 2 ^ 32,
   (h.getD 2 0 + st.getD 2 0) % 2 ^ 32, (h.getD 3 0 + st.getD 3 0) % 2 ^ 32,
   (h.getD 4 0 + st.getD 4 0) % 2 ^ 32, (h.getD 5 0 + st.getD 5 0) % 2 ^ 32,
   (h.getD 6 0 + st.getD 6 0) % 2 ^ 32, (h.getD 7 0 + st.getD 7 0) % 2 ^ 32]

/-- Big-endian 8-byte encoding of the 64-bit bit length. -/
def beBytes8 (n : Nat) : List Nat :=
  [n / 2 ^ 56 % 256, n / 2 ^ 48 % 256, n / 2 ^ 40 % 256, n / 2 ^ 32 % 256,
   n / 2 ^ 24 % 256, n / 2 ^ 16 % 256, n / 2 ^ 8 % 256, n % 256]

/-- FIPS 180-4 padding appended to a message of byte length `len`. -/
def padBytes (len : Nat) : List Nat :=
  0x80 :: (List.replicate ((119 - len % 64) % 64) 0 ++ beBytes8 (8 * len))

/-- One-shot SHA-256: pad, split into 64-byte blocks, fold the compression. -/
def sha256Words (msg : List Nat) : List Nat :=
  (splitFull 64 (msg ++ padBytes msg.length)).1.foldl compress IV256

/-- Lowercase hex of one 32-bit word. -/
def hex8 (w : Nat) : List Char :=
  [toHexChar (w / 16 ^ 7 % 16), toHexChar (w / 16 ^ 6 % 16),
   toHexChar (w / 16 ^ 5 % 16), toHexChar (w / 16 ^ 4 % 16),
   toHexChar (w / 16 ^ 3 % 16), toHexChar (w / 16 ^ 2 % 16),
   toHexChar (w / 16 % 16), toHexChar (w % 16)]

/-- One-shot SHA-256 hex digest of a byte stream. -/
def sha256hex (msg : List Nat) : String :=
  String.mk ((sha256Words msg).flatMap hex8)

/-- The incremental `hashlib.sha256` object: hash state, buffered partial
block, and total bytes consumed. -/
structure Sha256Ctx where
  hs : List Nat
  buf : List Nat
  len : Nat
deriving DecidableEq

/-- `hashlib.sha256()`. -/
def sha256Init : Sha256Ctx := ⟨IV256, [], 0⟩

/-- `h.update(x)`: compress every full 64-byte block, buffer the rest. -/
def sha256Update (s : Sha256Ctx) (x : List Nat) : Sha256Ctx :=
  ⟨(splitFull 64 (s.buf ++ x)).1.foldl compress s.hs,
   (splitFull 64 (s.buf ++ x)).2, s.len + x.length⟩

/-- `h.hexdigest()`: pad the buffered tail with the total length and finish. -/
def sha256Hexdigest (s : Sha256Ctx) : String :=
  String.mk
    (((splitFull 64 (s.buf ++ padBytes s.len)).1.foldl compress s.hs).flatMap hex8)

/-- Successive reads of at most `n` bytes until the stream ends, as the
`while True: chunk = fh.read(8192)` loop of `sha256_file` sees them. -/
def chunksOf (n : Nat) (l : List Nat) : List (List Nat) :=
  (splitFull n l).1 ++ (if (splitFull n l).2 = [] then [] else [(splitFull n l).2])

/-- `sha256_file(path)` of `submit_example.py`, with the file modelled by
its byte content: hash successive 8192-byte reads incrementally, then
return the hex digest. -/
def sha256_file (content : List Nat) : String :=
  sha256Hexdigest ((chunksOf 8192 content).foldl sha256Update sha256Init)

theorem sha256Update_append (s : Sha256Ctx) (a b : List Nat) :
    sha256Update (sha256Update s a) b = sha256Update s (a ++ b) := by
  have hlt : ((splitFull 64 (s.buf ++ a)).2).length < 64 :=
    splitFullAux_snd_lt 64 (by norm_num) (s.buf ++ a) [] (by simp)
  have hpre : splitFull 64 ((splitFull 64 (s.buf ++ a)).2 ++ b)
      = splitFullAux 64 b (splitFull 64 (s.buf ++ a)).2 := by
    unfold splitFull
    rw [splitFullAux_front 64 _ b [] (by simpa using hlt)]
    simp
  have happ : splitFull 64 (s.buf ++ (a ++ b))
      = ((splitFull 64 (s.buf ++ a)).1 ++
          (splitFullAux 64 b (splitFull 64 (s.buf ++ a)).2).1,
         (splitFullAux 64 b (splitFull 64 (s.buf ++ a)).2).2) := by
    unfold splitFull
    rw [← List.append_assoc, splitFullAux_append]
  unfold sha256Update
  dsimp only
  rw [hpre, happ]
  simp [List.foldl_append]
  omega

theorem foldl_sha256Update (chunks : List (List Nat)) :
    ∀ (s : Sha256Ctx) (a : List Nat),
      chunks.foldl sha256Update (sha256Update s a)
        = sha256Update s (a ++ chunks.flatten) := by
  induction chunks with
  | nil => intro s a; simp
  | cons c cs ih =>
    intro s a
    show cs.foldl sha256Update (sha256Update (sha256Update s a) c) = _
    rw [sha256Update_append, ih]
    simp

theorem hexdigest_update_init (msg : List Nat) :
    sha256Hexdigest (sha256Update sha256Init msg) = sha256hex msg := by
  unfold sha256Hexdigest sha256Update sha256Init sha256hex sha256Words
  dsimp only
  simp only [List.nil_append, Nat.zero_add]
  have hlt : ((splitFull 64 msg).2).length < 64 :=
    splitFullAux_snd_lt 64 (by norm_num) msg [] (by simp)
  have hpre : splitFull 64 ((splitFull 64 msg).2 ++ padBytes msg.length)
      = splitFullAux 64 (padBytes msg.length) (splitFull 64 msg).2 := by
    unfold splitFull
    rw [splitFullAux_front 64 _ _ [] (by simpa using hlt)]
    simp
  have happ : splitFull 64 (msg ++ padBytes msg.length)
      = ((splitFull 64 msg).1 ++
          (splitFullAux 64 (padBytes msg.length) (splitFull 64 msg).2).1,
         (splitFullAux 64 (padBytes msg.length) (splitFull 64 msg).2).2) := by
    unfold splitFull
    rw [splitFullAux_append]
  rw [hpre, happ]
  simp [List.foldl_append]

theorem flatten_chunksOf (n : Nat) (l : List Nat) : (chunksOf n l).flatten = l := by
  unfold chunksOf
  have hj : (splitFull n l).1.flatten ++ (splitFull n l).2 = [] ++ l :=
    splitFullAux_join n l []
  simp only [List.nil_append] at hj
  by_cases h2 : (splitFull n l).2 = []
  · rw [if_pos h2]
    simp only [List.append_nil]
    rw [h2] at hj
    simpa using hj
  · rw [if_neg h2]
    rw [List.flatten_append]
    simpa using hj

theorem sha256_fold_chunks (content : List Nat) (chunks : List (List Nat))
    (hj : chunks.flatten = content) :
    sha256Hexdigest (chunks.foldl sha256Update sha256Init) = sha256hex content := by
  cases chunks with
  | nil =>
    have h0 : content = [] := by simpa using hj.symm
    subst h0
    have hinit : sha256Init = sha256Update sha256Init [] := rfl
    show sha256Hexdigest sha256Init = _
    rw [hinit, hexdigest_update_init]
  | cons c cs =>
    rw [List.foldl_cons, foldl_sha256Update cs sha256Init c, hexdigest_update_init]
    rw [← hj]
    simp

theorem sha256_file_eq (content : List Nat) :
    sha256_file content = sha256hex content :=
  sha256_fold_chunks content (chunksOf 8192 content) (flatten_chunksOf 8192 content)

/-! ### Decoding canonical JSON

A decoder tailored to the serializer's output, used only to prove the
serializer injective (it need not reject malformed input). -/

/-- Unescape a short escape character (`\n`, `\t`, …); `"` and `\` map to
themselves. -/
def unescChar : Char → Char
  | 'n' => '\n'
  | 'r' => '\r'
  | 't' => '\t'
  | 'b' => Char.ofNat 8
  | 'f' => Char.ofNat 12
  | c => c

mutual
/-- Decode an escaped string body up to the closing quote, returning the
characters and the remaining input. -/
def parseStrBody : List Char → Option (List Char × List Char)
  | [] => none
  | c :: rest =>
    if c = '"' then some ([], rest)
    else if c = '\\' then parseEsc rest
    else
      match parseStrBody rest with
      | some (s, r) => some (c :: s, r)
      | none => none

/-- Decode one escape sequence (after the backslash) then the rest of the
string body; recombines UTF-16 surrogate pairs. -/
def parseEsc : List Char → Option (List Char × List Char)
  | [] => none
  | e :: rest =>
    if e = 'u' then
      match rest with
      | a :: b :: c2 :: d :: rest2 =>
        if 0xd800 ≤ unhex4 a b c2 d ∧ unhex4 a b c2 d < 0xdc00 then
          match rest2 with
          | bs :: u2 :: a2 :: b2 :: c3 :: d2 :: rest3 =>
            if bs = '\\' ∧ u2 = 'u' then
              match parseStrBody rest3 with
              | some (s, r) =>
                some (Char.ofNat (0x10000 + (unhex4 a b c2 d - 0xd800) * 1024 +
                  (unhex4 a2 b2 c3 d2 - 0xdc00)) :: s, r)
              | none => none
            else none
          | _ => none
        else
          match parseStrBody rest2 with
          | some (s, r) => some (Char.ofNat (unhex4 a b c2 d) :: s, r)
          | none => none
      | _ => none
    else
      match parseStrBody rest with
      | some (s, r) => some (unescChar e :: s, r)
      | none => none
end

/-- Characters that can occur in a serialized JSON number. -/
def isNumChar (c : Char) : Bool :=
  c.isDigit || c == '-' || c == '+' || c == '.' || c == 'e'

/-- Does the character list contain `x`? -/
def hasChar (x : Char) : List Char → Bool
  | [] => false
  | c :: cs => if c = x then true else hasChar x cs

/-- Decode a serialized number span: a float when it contains `.` or `e`
(CPython float `repr` always does), an integer otherwise. -/
def decodeNum (cs : List Char) : JVal :=
  match cs with
  | c :: cs2 =>
    if c = '-' then
      if hasChar '.' cs2 || hasChar 'e' cs2 then .jfloat (decodeFloatMag true cs2)
      else .jint (-(decDigitsBE cs2 : Int))
    else
      if hasChar '.' (c :: cs2) || hasChar 'e' (c :: cs2) then
        .jfloat (decodeFloatMag false (c :: cs2))
      else .jint (decDigitsBE (c :: cs2))
  | [] => .jnull

/-- Consume an expected literal token, returning the remaining input. -/
def dropTok : List Char → List Char → Option (List Char)
  | [], r => some r
  | t :: ts, c :: r => if c = t then dropTok ts r else none
  | _ :: _, [] => none

mutual
/-- Decode one canonical JSON value with explicit fuel. -/
def parseVal : Nat → List Char → Option (JVal × List Char)
  | 0, _ => none
  | fuel + 1, cs =>
    match cs with
    | [] => none
    | c :: r =>
      if c = '-' ∨ c.isDigit = true then
        some (decodeNum (cs.takeWhile isNumChar), cs.dropWhile isNumChar)
      else if c = 'n' then
        match dropTok ['u', 'l', 'l'] r with
        | some r2 => some (.jnull, r2)
        | none => none
      else if c = 't' then
        match dropTok ['r', 'u', 'e'] r with
        | some r2 => some (.jbool true, r2)
        | none => none
      else if c = 'f' then
        match dropTok ['a', 'l', 's', 'e'] r with
        | some r2 => some (.jbool false, r2)
        | none => none
      else if c = '"' then
        match parseStrBody r with
        | some (s, r2) => some (.jstr (String.mk s), r2)
        | none => none
      else if c = '[' then
        match parseArrE fuel r with
        | some (xs, r2) => some (.jarr xs, r2)
        | none => none
      else if c = '\x7b' then
        match parseObjE fuel r with
        | some (kvs, r2) => some (.jobj kvs, r2)
        | none => none
      else none

/-- Decode array elements up to and including the closing bracket. -/
def parseArrE : Nat → List Char → Option (List JVal × List Char)
  | 0, _ => none
  | fuel + 1, cs =>
    match cs with
    | [] => none
    | c :: r =>
      if c = ']' then some ([], r)
      else
        match parseVal fuel cs with
        | some (v, r1) =>
          match r1 with
          | [] => none
          | c2 :: r2 =>
            if c2 = ',' then
              match parseArrE fuel r2 with
              | some (vs, r3) => some (v :: vs, r3)
              | none => none
            else if c2 = ']' then some ([v], r2)
            else none
        | none => none

/-- Decode object entries up to and including the closing brace. -/
def parseObjE : Nat → List Char → Option (List (String × JVal) × List Char)
  | 0, _ => none
  | fuel + 1, cs =>
    match cs with
    | [] => none
    | c :: r =>
      if c = '\x7d' then some ([], r)
      else if c = '"' then
        match parseStrBody r with
        | some (kcs, r1) =>
          match r1 with
          | [] => none
          | c2 :: r2 =>
            if c2 = ':' then
              match parseVal fuel r2 with
              | some (v, r3) =>
                match r3 with
                | [] => none
                | c3 :: r4 =>
                  if c3 = ',' then
                    match parseObjE fuel r4 with
                    | some (kvs, r5) => some ((String.mk kcs, v) :: kvs, r5)
                    | none => none
                  else if c3 = '\x7d' then some ([(String.mk kcs, v)], r4)
                  else none
              | none => none
            else none
        | none => none
      else none
end

/-- A continuation on which number parsing is unambiguous: end of input or
a structural delimiter. -/
def isDelim : List Char → Bool
  | [] => true
  | c :: _ => c == ',' || c == ']' || c == '}'

mutual
/-- Node-counting size of a value, bounding the parser fuel it needs. -/
def sizeV : JVal → Nat
  | .jarr xs => sizeL xs + 1
  | .jobj kvs => sizeO kvs + 1
  | _ => 1

/-- Size of an array element list. -/
def sizeL : List JVal → Nat
  | [] => 0
  | x :: xs => sizeV x + sizeL xs + 1

/-- Size of an object entry list. -/
def sizeO : List (String × JVal) → Nat
  | [] => 0
  | (_, v) :: kvs => sizeV v + sizeO kvs + 1
end

mutual
/-- All floats in the value are in canonical shortest form. -/
def wfV : JVal → Bool
  | .jfloat f => wfF f
  | .jarr xs => wfL xs
  | .jobj kvs => wfO kvs
  | _ => true

/-- `wfV` over array elements. -/
def wfL : List JVal → Bool
  | [] => true
  | x :: xs => wfV x && wfL xs

/-- `wfV` over object entry values. -/
def wfO : List (String × JVal) → Bool
  | [] => true
  | (_, v) :: kvs => wfV v && wfO kvs
end

theorem fromHexChar_toHexChar (d : Nat) (h : d < 16) :
    fromHexChar (toHexChar d) = d := by
  interval_cases d <;> rfl

theorem unhex4_hex4 (n : Nat) (h : n < 65536) :
    unhex4 (toHexChar (n / 4096 % 16)) (toHexChar (n / 256 % 16))
      (toHexChar (n / 16 % 16)) (toHexChar (n % 16)) = n := by
  unfold unhex4
  rw [fromHexChar_toHexChar _ (by omega), fromHexChar_toHexChar _ (by omega),
    fromHexChar_toHexChar _ (by omega), fromHexChar_toHexChar _ (by omega)]
  omega

theorem char_valid_range (c : Char) :
    c.toNat < 0xd800 ∨ (0xe000 ≤ c.toNat ∧ c.toNat < 0x110000) := by
  have h := c.valid
  rcases h with h | ⟨h1, h2⟩
  · left; exact h
  · right; exact ⟨h1, h2⟩

theorem parseStrBody_escape (s : List Char) :
    ∀ rest : List Char,
      parseStrBody (s.flatMap escChar ++ '"' :: rest) = some (s, rest) := by
  induction s with
  | nil =>
    intro rest
    show parseStrBody ('"' :: rest) = some ([], rest)
    rw [parseStrBody.eq_def]
    dsimp only
    rw [if_pos rfl]
  | cons c cs ih =>
    intro rest
    show parseStrBody ((escChar c ++ cs.flatMap escChar) ++ '"' :: rest) = _
    rw [List.append_assoc]
    by_cases h1 : c = '"'
    · have hesc : escChar c = ['\\', '"'] := by subst h1; rfl
      rw [hesc]
      simp only [List.cons_append, List.nil_append]
      subst h1
      rw [parseStrBody.eq_def]
      dsimp only
      rw [if_neg (by decide), if_pos rfl, parseEsc.eq_def]
      dsimp only
      rw [if_neg (by decide), ih rest]
      rfl
    · by_cases h2 : c = '\\'
      · have hesc : escChar c = ['\\', '\\'] := by subst h2; rfl
        rw [hesc]
        simp only [List.cons_append, List.nil_append]
        subst h2
        rw [parseStrBody.eq_def]
        dsimp only
        rw [if_neg (by decide), if_pos rfl, parseEsc.eq_def]
        dsimp only
        rw [if_neg (by decide), ih rest]
        rfl
      · by_cases h3 : c = '\n'
        · have hesc : escChar c = ['\\', 'n'] := by subst h3; rfl
          rw [hesc]
          simp only [List.cons_append, List.nil_append]
          subst h3
          rw [parseStrBody.eq_def]
          dsimp only
          rw [if_neg (by decide), if_pos rfl, parseEsc.eq_def]
          dsimp only
          rw [if_neg (by decide), ih rest]
          rfl
        · by_cases h4 : c = '\r'
          · have hesc : escChar c = ['\\', 'r'] := by subst h4; rfl
            rw [hesc]
            simp only [List.cons_append, List.nil_append]
            subst h4
            rw [parseStrBody.eq_def]
            dsimp only
            rw [if_neg (by decide), if_pos rfl, parseEsc.eq_def]
            dsimp only
            rw [if_neg (by decide), ih rest]
            rfl
          · by_cases h5 : c = '\t'
            · have hesc : escChar c = ['\\', 't'] := by subst h5; rfl
              rw [hesc]
              simp only [List.cons_append, List.nil_append]
              subst h5
              rw [parseStrBody.eq_def]
              dsimp only
              rw [if_neg (by decide), if_pos rfl, parseEsc.eq_def]
              dsimp only
              rw [if_neg (by decide), ih rest]
              rfl
            · by_cases h6 : c.toNat = 8
              · have hesc : escChar c = ['\\', 'b'] := by
                  unfold escChar
                  rw [if_neg h1, if_neg h2, if_neg h3, if_neg h4, if_neg h5,
                    if_pos h6]
                rw [hesc]
                simp only [List.cons_append, List.nil_append]
                rw [parseStrBody.eq_def]
                dsimp only
                rw [if_neg (by decide), if_pos rfl, parseEsc.eq_def]
                dsimp only
                rw [if_neg (by decide), ih rest]
                have hc : unescChar 'b' = c := by
                  show Char.ofNat 8 = c
                  rw [← h6, Char.ofNat_toNat]
                rw [hc]
              · by_cases h7 : c.toNat = 12
                · have hesc : escChar c = ['\\', 'f'] := by
                    unfold escChar
                    rw [if_neg h1, if_neg h2, if_neg h3, if_neg h4, if_neg h5,
                      if_neg h6, if_pos h7]
                  rw [hesc]
                  simp only [List.cons_append, List.nil_append]
                  rw [parseStrBody.eq_def]
                  dsimp only
                  rw [if_neg (by decide), if_pos rfl, parseEsc.eq_def]
                  dsimp only
                  rw [if_neg (by decide), ih rest]
                  have hc : unescChar 'f' = c := by
                    show Char.ofNat 12 = c
                    rw [← h7, Char.ofNat_toNat]
                  rw [hc]
                · by_cases h8 : 0x20 ≤ c.toNat ∧ c.toNat ≤ 0x7e
                  · have hesc : escChar c = [c] := by
                      unfold escChar
                      rw [if_neg h1, if_neg h2, if_neg h3, if_neg h4, if_neg h5,
                        if_neg h6, if_neg h7, if_pos h8]
                    rw [hesc]
                    simp only [List.cons_append, List.nil_append]
                    rw [parseStrBody.eq_def]
                    dsimp only
                    rw [if_neg h1, if_neg h2, ih rest]
                  · by_cases h9 : c.toNat < 0x10000
                    · have hesc : escChar c = '\\' :: 'u' :: hex4 c.toNat := by
                        unfold escChar
                        rw [if_neg h1, if_neg h2, if_neg h3, if_neg h4, if_neg h5,
                          if_neg h6, if_neg h7, if_neg h8, if_pos h9]
                      rw [hesc]
                      simp only [hex4, List.cons_append, List.nil_append]
                      rw [parseStrBody.eq_def]
                      dsimp only
                      rw [if_neg (by decide), if_pos rfl, parseEsc.eq_def]
                      dsimp only
                      rw [if_pos rfl]
                      rw [unhex4_hex4 c.toNat h9]
                      have hns : ¬ (0xd800 ≤ c.toNat ∧ c.toNat < 0xdc00) := by
                        rcases char_valid_range c with h | ⟨ha, _⟩
                        · omega
                        · omega
                      rw [if_neg hns, ih rest, Char.ofNat_toNat]
                    · have hesc : escChar c =
                          ('\\' :: 'u' :: hex4 (0xd800 + (c.toNat - 0x10000) / 1024)) ++
                          ('\\' :: 'u' :: hex4 (0xdc00 + (c.toNat - 0x10000) % 1024)) := by
                        unfold escChar
                        rw [if_neg h1, if_neg h2, if_neg h3, if_neg h4, if_neg h5,
                          if_neg h6, if_neg h7, if_neg h8, if_neg h9]
                      rw [hesc]
                      simp only [hex4, List.cons_append, List.nil_append]
                      rw [parseStrBody.eq_def]
                      dsimp only
                      rw [if_neg (by decide), if_pos rfl, parseEsc.eq_def]
                      dsimp only
                      rw [if_pos rfl]
                      have hup : c.toNat < 0x110000 := by
                        rcases char_valid_range c with h | ⟨_, hb⟩
                        · omega
                        · exact hb
                      have hlo : 0x10000 ≤ c.toNat := by omega
                      rw [unhex4_hex4 _ (by omega)]
                      rw [if_pos (by omega)]
                      rw [if_pos ⟨rfl, rfl⟩]
                      rw [unhex4_hex4 _ (by omega)]
                      rw [ih rest]
                      have hchar : Char.ofNat (0x10000 +
                          (0xd800 + (c.toNat - 0x10000) / 1024 - 0xd800) * 1024 +
                          (0xdc00 + (c.toNat - 0x10000) % 1024 - 0xdc00)) = c := by
                        have harith : 0x10000 +
                            (0xd800 + (c.toNat - 0x10000) / 1024 - 0xd800) * 1024 +
                            (0xdc00 + (c.toNat - 0x10000) % 1024 - 0xdc00)
                            = c.toNat := by omega
                        rw [harith, Char.ofNat_toNat]
                      rw [hchar]

theorem hasChar_eq_false (x : Char) (cs : List Char) (h : ∀ c ∈ cs, c ≠ x) :
    hasChar x cs = false := by
  induction cs with
  | nil => rfl
  | cons c cs ih =>
    unfold hasChar
    rw [if_neg (h c (List.mem_cons_self c cs))]
    exact ih (fun c2 hc2 => h c2 (List.mem_cons_of_mem c hc2))

theorem hasChar_nil (x : Char) : hasChar x [] = false := rfl

theorem hasChar_cons (x c : Char) (cs : List Char) :
    hasChar x (c :: cs) = if c = x then true else hasChar x cs := rfl

theorem hasChar_append (x : Char) (a b : List Char) :
    hasChar x (a ++ b) = (hasChar x a || hasChar x b) := by
  induction a with
  | nil => simp [hasChar_nil]
  | cons c cs ih =>
    rw [List.cons_append, hasChar_cons, hasChar_cons]
    by_cases hc : c = x
    · rw [if_pos hc, if_pos hc]
      simp
    · rw [if_neg hc, if_neg hc, ih]

theorem isDigit_ne (c : Char) (h : c.isDigit = true) (x : Char)
    (hx : x.isDigit = false) : c ≠ x := by
  intro he
  subst he
  rw [h] at hx
  cases hx

theorem decodeNum_intRepr (n : Int) : decodeNum (intRepr n) = .jint n := by
  have hdig := charDigits_isDigit n.natAbs
  have hdot : hasChar '.' (charDigits n.natAbs) = false :=
    hasChar_eq_false _ _ (fun c hc => isDigit_ne c (hdig c hc) '.' (by decide))
  have he : hasChar 'e' (charDigits n.natAbs) = false :=
    hasChar_eq_false _ _ (fun c hc => isDigit_ne c (hdig c hc) 'e' (by decide))
  unfold intRepr
  by_cases hn : n < 0
  · rw [if_pos hn, decodeNum.eq_def]
    dsimp only
    rw [if_pos rfl, hdot, he]
    rw [if_neg (by decide), decDigitsBE_charDigits]
    have : -(n.natAbs : Int) = n := by omega
    rw [this]
  · rw [if_neg hn]
    obtain ⟨c, cs2, hD⟩ : ∃ c cs2, charDigits n.natAbs = c :: cs2 := by
      cases hcd : charDigits n.natAbs with
      | nil => exact absurd hcd (charDigits_ne_nil n.natAbs)
      | cons a l => exact ⟨a, l, rfl⟩
    have hcdig : c.isDigit = true := hdig c (by rw [hD]; exact List.mem_cons_self c cs2)
    rw [hD, decodeNum.eq_def]
    dsimp only
    rw [if_neg (isDigit_ne c hcdig '-' (by decide)), ← hD, hdot, he]
    rw [if_neg (by decide), decDigitsBE_charDigits]
    have : (n.natAbs : Int) = n := by omega
    rw [this]

theorem hasChar_self_cons (x : Char) (cs : List Char) :
    hasChar x (x :: cs) = true := by
  unfold hasChar
  rw [if_pos rfl]

theorem floatMag_has_dot_or_e (f : PyFloat) :
    (hasChar '.' (floatMag f) || hasChar 'e' (floatMag f)) = true := by
  unfold floatMag
  by_cases hsci : sciExp f < -4 ∨ 16 ≤ sciExp f
  · rw [if_pos hsci]
    have : hasChar 'e' (sciMantPart (charDigits f.mant) ++ expPart (sciExp f)) = true := by
      rw [hasChar_append]
      unfold expPart
      rw [hasChar_self_cons]
      simp
    rw [this]
    simp
  · rw [if_neg hsci]
    have : hasChar '.' (fixPart (charDigits f.mant) (sciExp f)) = true := by
      unfold fixPart
      split_ifs with hp hl
      · rw [hasChar_append, hasChar_append, hasChar_self_cons]
        simp
      · rw [hasChar_append, hasChar_self_cons]
        simp
      · simp only [List.cons_append]
        rw [hasChar_cons, if_neg (by decide), hasChar_self_cons]
    rw [this]
    simp

theorem floatMag_head (f : PyFloat) :
    ∃ c cs, floatMag f = c :: cs ∧ c.isDigit = true := by
  obtain ⟨d0, D0, hD⟩ : ∃ d0 D0, charDigits f.mant = d0 :: D0 := by
    cases hcd : charDigits f.mant with
    | nil => exact absurd hcd (charDigits_ne_nil f.mant)
    | cons a l => exact ⟨a, l, rfl⟩
  have hd0 : d0.isDigit = true :=
    charDigits_isDigit f.mant d0 (by rw [hD]; exact List.mem_cons_self d0 D0)
  unfold floatMag
  by_cases hsci : sciExp f < -4 ∨ 16 ≤ sciExp f
  · rw [if_pos hsci, hD]
    cases D0 with
    | nil => exact ⟨d0, _, rfl, hd0⟩
    | cons r rs => exact ⟨d0, _, rfl, hd0⟩
  · rw [if_neg hsci]
    unfold fixPart
    split_ifs with hp hl
    · rw [hD]
      exact ⟨d0, _, rfl, hd0⟩
    · have ht : (sciExp f + 1).toNat = ((sciExp f + 1).toNat - 1) + 1 := by omega
      rw [hD, ht, List.take_succ_cons]
      exact ⟨d0, _, rfl, hd0⟩
    · exact ⟨'0', _, rfl, by decide⟩

theorem decodeNum_floatRepr (f : PyFloat) (h : wfF f = true) :
    decodeNum (floatRepr f) = .jfloat f := by
  unfold floatRepr
  by_cases hneg : f.neg = true
  · rw [if_pos hneg, decodeNum.eq_def]
    dsimp only
    rw [if_pos rfl, floatMag_has_dot_or_e]
    rw [if_pos rfl, decodeFloatMag_floatMag true f h]
    obtain ⟨fn, m, d⟩ := f
    cases fn
    · cases hneg
    · rfl
  · rw [if_neg hneg]
    obtain ⟨c, cs, hM, hdig⟩ := floatMag_head f
    rw [hM, decodeNum.eq_def]
    dsimp only
    rw [if_neg (isDigit_ne c hdig '-' (by decide)), ← hM, floatMag_has_dot_or_e]
    rw [if_pos rfl, decodeFloatMag_floatMag false f h]
    obtain ⟨fn, m, d⟩ := f
    cases fn
    · rfl
    · simp at hneg

theorem delim_span (rest : List Char) (h : isDelim rest = true) :
    rest.takeWhile isNumChar = [] ∧ rest.dropWhile isNumChar = rest := by
  cases rest with
  | nil => exact ⟨rfl, rfl⟩
  | cons c r =>
    have hc : isNumChar c = false := by
      unfold isDelim at h
      rcases Bool.or_eq_true_iff.mp h with h1 | h1
      · rcases Bool.or_eq_true_iff.mp h1 with h2 | h2
        · rw [eq_of_beq h2]; decide
        · rw [eq_of_beq h2]; decide
      · rw [eq_of_beq h1]; decide
    constructor
    · rw [List.takeWhile_cons, hc]
      rw [if_neg (by decide)]
    · rw [List.dropWhile_cons, hc]
      rw [if_neg (by decide)]

theorem intRepr_isNum (n : Int) : ∀ c ∈ intRepr n, isNumChar c = true := by
  intro c hc
  unfold intRepr at hc
  have hdig : ∀ x ∈ charDigits n.natAbs, isNumChar x = true := by
    intro x hx
    unfold isNumChar
    rw [charDigits_isDigit n.natAbs x hx]
    simp
  split at hc
  · rcases List.mem_cons.mp hc with rfl | hc2
    · decide
    · exact hdig c hc2
  · exact hdig c hc

theorem sciMantPart_mem (D : List Char) :
    ∀ c ∈ sciMantPart D, c ∈ D ∨ c = '.' := by
  intro c hc
  match D with
  | [] => simp [sciMantPart] at hc
  | [d] =>
    simp only [sciMantPart] at hc
    left
    exact hc
  | d :: r :: rs =>
    simp only [sciMantPart] at hc
    rcases List.mem_cons.mp hc with rfl | hc2
    · left; exact List.mem_cons_self _ _
    · rcases List.mem_cons.mp hc2 with rfl | hc3
      · right; rfl
      · left; exact List.mem_cons_of_mem _ hc3

theorem expPart_mem (E : Int) :
    ∀ c ∈ expPart E, c = 'e' ∨ c = '+' ∨ c = '-' ∨ c.isDigit = true := by
  intro c hc
  unfold expPart at hc
  rcases List.mem_cons.mp hc with rfl | hc2
  · left; rfl
  · rcases List.mem_cons.mp hc2 with rfl | hc3
    · split
      · right; right; left; rfl
      · right; left; rfl
    · split at hc3
      · rcases List.mem_cons.mp hc3 with rfl | hc4
        · right; right; right; decide
        · right; right; right; exact charDigits_isDigit _ c hc4
      · right; right; right; exact charDigits_isDigit _ c hc3

theorem floatRepr_isNum (f : PyFloat) : ∀ c ∈ floatRepr f, isNumChar c = true := by
  have hmag : ∀ c ∈ floatMag f, isNumChar c = true := by
    intro c hc
    unfold floatMag at hc
    have hnum_digit : ∀ x : Char, x.isDigit = true → isNumChar x = true := by
      intro x hx
      unfold isNumChar
      rw [hx]
      simp
    split at hc
    · rcases List.mem_append.mp hc with h1 | h2
      · rcases sciMantPart_mem _ c h1 with h3 | rfl
        · exact hnum_digit c (charDigits_isDigit _ c h3)
        · decide
      · rcases expPart_mem _ c h2 with rfl | rfl | rfl | h3
        · decide
        · decide
        · decide
        · exact hnum_digit c h3
    · unfold fixPart at hc
      split at hc
      · split at hc
        · rcases List.mem_append.mp hc with h1 | h2
          · rcases List.mem_append.mp h1 with h3 | h4
            · exact hnum_digit c (charDigits_isDigit _ c h3)
            · rw [List.eq_of_mem_replicate h4]; decide
          · rcases List.mem_cons.mp h2 with rfl | h3
            · decide
            · rcases List.mem_singleton.mp h3 with rfl; decide
        · rcases List.mem_append.mp hc with h1 | h2
          · exact hnum_digit c (charDigits_isDigit _ c (List.mem_of_mem_take h1))
          · rcases List.mem_cons.mp h2 with rfl | h3
            · decide
            · exact hnum_digit c (charDigits_isDigit _ c (List.mem_of_mem_drop h3))
      · rcases List.mem_cons.mp hc with rfl | h1
        · decide
        · rcases List.mem_cons.mp h1 with rfl | h2
          · decide
          · rcases List.mem_append.mp h2 with h3 | h4
            · rw [List.eq_of_mem_replicate h3]; decide
            · exact hnum_digit c (charDigits_isDigit _ c h4)
  intro c hc
  unfold floatRepr at hc
  split at hc
  · rcases List.mem_cons.mp hc with rfl | hc2
    · decide
    · exact hmag c hc2
  · exact hmag c hc

theorem serV_head (v : JVal) :
    ∃ c cs, serV [','] [':'] v = c :: cs ∧
      (c = '-' ∨ c.isDigit = true ∨ c = 'n' ∨ c = 't' ∨ c = 'f' ∨ c = '"' ∨
       c = '[' ∨ c = '\x7b') := by
  cases v with
  | jnull => exact ⟨'n', _, rfl, by decide⟩
  | jbool b =>
    cases b
    · exact ⟨'f', _, rfl, by decide⟩
    · exact ⟨'t', _, rfl, by decide⟩
  | jint n =>
    show ∃ c cs, intRepr n = c :: cs ∧ _
    unfold intRepr
    by_cases hn : n < 0
    · rw [if_pos hn]
      exact ⟨'-', _, rfl, by decide⟩
    · rw [if_neg hn]
      obtain ⟨c, cs2, hD⟩ : ∃ c cs2, charDigits n.natAbs = c :: cs2 := by
        cases hcd : charDigits n.natAbs with
        | nil => exact absurd hcd (charDigits_ne_nil n.natAbs)
        | cons a l => exact ⟨a, l, rfl⟩
      refine ⟨c, cs2, hD, Or.inr (Or.inl ?_)⟩
      exact charDigits_isDigit n.natAbs c (by rw [hD]; exact List.mem_cons_self c cs2)
  | jfloat f =>
    show ∃ c cs, floatRepr f = c :: cs ∧ _
    unfold floatRepr
    by_cases hneg : f.neg = true
    · rw [if_pos hneg]
      exact ⟨'-', _, rfl, by decide⟩
    · rw [if_neg hneg]
      obtain ⟨c, cs, hM, hdig⟩ := floatMag_head f
      exact ⟨c, cs, hM, Or.inr (Or.inl hdig)⟩
  | jstr s => exact ⟨'"', _, rfl, by decide⟩
  | jarr xs => exact ⟨'[', _, rfl, by decide⟩
  | jobj kvs => exact ⟨'\x7b', _, rfl, by decide⟩

theorem dropTok_self (ts rest : List Char) : dropTok ts (ts ++ rest) = some rest := by
  induction ts with
  | nil => rfl
  | cons t ts ih =>
    show dropTok (t :: ts) (t :: (ts ++ rest)) = some rest
    unfold dropTok
    rw [if_pos rfl, ih]

theorem intRepr_head (n : Int) :
    ∃ c cs, intRepr n = c :: cs ∧ (c = '-' ∨ c.isDigit = true) := by
  unfold intRepr
  by_cases hn : n < 0
  · rw [if_pos hn]
    exact ⟨'-', _, rfl, Or.inl rfl⟩
  · rw [if_neg hn]
    obtain ⟨c, cs2, hD⟩ : ∃ c cs2, charDigits n.natAbs = c :: cs2 := by
      cases hcd : charDigits n.natAbs with
      | nil => exact absurd hcd (charDigits_ne_nil n.natAbs)
      | cons a l => exact ⟨a, l, rfl⟩
    exact ⟨c, cs2, hD, Or.inr (charDigits_isDigit n.natAbs c
      (by rw [hD]; exact List.mem_cons_self c cs2))⟩

theorem floatRepr_head (f : PyFloat) :
    ∃ c cs, floatRepr f = c :: cs ∧ (c = '-' ∨ c.isDigit = true) := by
  unfold floatRepr
  by_cases hneg : f.neg = true
  · rw [if_pos hneg]
    exact ⟨'-', _, rfl, Or.inl rfl⟩
  · rw [if_neg hneg]
    obtain ⟨c, cs, hM, hdig⟩ := floatMag_head f
    exact ⟨c, cs, hM, Or.inr hdig⟩

theorem parse_rt (fuel : Nat) :
    (∀ v rest, wfV v = true → sizeV v + 1 ≤ fuel → isDelim rest = true →
      parseVal fuel (serV [','] [':'] v ++ rest) = some (v, rest)) ∧
    (∀ xs rest, wfL xs = true → sizeL xs + 1 ≤ fuel → isDelim rest = true →
      parseArrE fuel (serArr [','] [':'] xs ++ ']' :: rest) = some (xs, rest)) ∧
    (∀ kvs rest, wfO kvs = true → sizeO kvs + 1 ≤ fuel → isDelim rest = true →
      parseObjE fuel (serObj [','] [':'] kvs ++ '\x7d' :: rest) = some (kvs, rest)) := by
  induction fuel using Nat.strong_induction_on with
  | _ fuel ih =>
    refine ⟨?_, ?_, ?_⟩
    · intro v rest hwf hsz hdel
      cases fuel with
      | zero => exact absurd hsz (by omega)
      | succ f =>
        cases v with
        | jnull =>
          show parseVal (f + 1) (['n', 'u', 'l', 'l'] ++ rest) = _
          simp only [List.cons_append, List.nil_append]
          rw [parseVal.eq_def]
          dsimp only
          rw [if_neg (by decide), if_pos rfl]
          have hdt : dropTok ['u', 'l', 'l'] ('u' :: 'l' :: 'l' :: rest) = some rest :=
            dropTok_self ['u', 'l', 'l'] rest
          rw [hdt]
        | jbool b =>
          cases b with
          | true =>
            show parseVal (f + 1) (['t', 'r', 'u', 'e'] ++ rest) = _
            simp only [List.cons_append, List.nil_append]
            rw [parseVal.eq_def]
            dsimp only
            rw [if_neg (by decide), if_neg (by decide), if_pos rfl]
            have hdt : dropTok ['r', 'u', 'e'] ('r' :: 'u' :: 'e' :: rest) = some rest :=
              dropTok_self ['r', 'u', 'e'] rest
            rw [hdt]
          | false =>
            show parseVal (f + 1) (['f', 'a', 'l', 's', 'e'] ++ rest) = _
            simp only [List.cons_append, List.nil_append]
            rw [parseVal.eq_def]
            dsimp only
            rw [if_neg (by decide), if_neg (by decide), if_neg (by decide), if_pos rfl]
            have hdt : dropTok ['a', 'l', 's', 'e'] ('a' :: 'l' :: 's' :: 'e' :: rest)
                = some rest := dropTok_self ['a', 'l', 's', 'e'] rest
            rw [hdt]
        | jint n =>
          obtain ⟨c, cs0, hI, hstart⟩ := intRepr_head n
          show parseVal (f + 1) (intRepr n ++ rest) = _
          rw [hI]
          simp only [List.cons_append]
          rw [parseVal.eq_def]
          dsimp only
          rw [if_pos hstart]
          rw [← List.cons_append, ← hI]
          rw [takeWhile_append_all _ _ (intRepr_isNum n),
            dropWhile_append_all _ _ (intRepr_isNum n),
            (delim_span rest hdel).1, (delim_span rest hdel).2,
            List.append_nil, decodeNum_intRepr]
        | jfloat fl =>
          obtain ⟨c, cs0, hI, hstart⟩ := floatRepr_head fl
          show parseVal (f + 1) (floatRepr fl ++ rest) = _
          rw [hI]
          simp only [List.cons_append]
          rw [parseVal.eq_def]
          dsimp only
          rw [if_pos hstart]
          rw [← List.cons_append, ← hI]
          rw [takeWhile_append_all _ _ (floatRepr_isNum fl),
            dropWhile_append_all _ _ (floatRepr_isNum fl),
            (delim_span rest hdel).1, (delim_span rest hdel).2,
            List.append_nil, decodeNum_floatRepr fl hwf]
        | jstr s =>
          show parseVal (f + 1) (('"' :: (s.data.flatMap escChar ++ ['"'])) ++ rest) = _
          simp only [List.cons_append, List.append_assoc, List.singleton_append, List.nil_append]
          rw [parseVal.eq_def]
          dsimp only
          rw [if_neg (by decide), if_neg (by decide), if_neg (by decide),
            if_neg (by decide), if_pos rfl]
          rw [parseStrBody_escape s.data rest]
        | jarr xs =>
          show parseVal (f + 1)
            (('[' :: (serArr [','] [':'] xs ++ [']'])) ++ rest) = _
          simp only [List.cons_append, List.append_assoc, List.singleton_append, List.nil_append]
          rw [parseVal.eq_def]
          dsimp only
          rw [if_neg (by decide), if_neg (by decide), if_neg (by decide),
            if_neg (by decide), if_neg (by decide), if_pos rfl]
          have hwx : wfL xs = true := hwf
          have hsx : sizeL xs + 1 ≤ f := by
            have he : sizeV (.jarr xs) = sizeL xs + 1 := rfl
            omega
          rw [(ih f (by omega)).2.1 xs rest hwx hsx hdel]
        | jobj kvs =>
          show parseVal (f + 1)
            (('\x7b' :: (serObj [','] [':'] kvs ++ ['\x7d'])) ++ rest) = _
          simp only [List.cons_append, List.append_assoc, List.singleton_append, List.nil_append]
          rw [parseVal.eq_def]
          dsimp only
          rw [if_neg (by decide), if_neg (by decide), if_neg (by decide),
            if_neg (by decide), if_neg (by decide), if_neg (by decide), if_pos rfl]
          have hwx : wfO kvs = true := hwf
          have hsx : sizeO kvs + 1 ≤ f := by
            have he : sizeV (.jobj kvs) = sizeO kvs + 1 := rfl
            omega
          rw [(ih f (by omega)).2.2 kvs rest hwx hsx hdel]
    · intro xs rest hwf hsz hdel
      cases fuel with
      | zero => exact absurd hsz (by omega)
      | succ f =>
        cases xs with
        | nil =>
          show parseArrE (f + 1) ([] ++ ']' :: rest) = _
          simp only [List.nil_append]
          rw [parseArrE.eq_def]
          dsimp only
          rw [if_pos rfl]
        | cons x xs2 =>
          obtain ⟨c, cs0, hH, hstart⟩ := serV_head x
          have hcne : c ≠ ']' := by
            rcases hstart with h | h | h | h | h | h | h | h
            · subst h; decide
            · exact isDigit_ne c h ']' (by decide)
            · subst h; decide
            · subst h; decide
            · subst h; decide
            · subst h; decide
            · subst h; decide
            · subst h; decide
          have hwx : (wfV x && wfL xs2) = true := hwf
          obtain ⟨hw1, hw2⟩ : wfV x = true ∧ wfL xs2 = true := by simpa using hwx
          have hsz2 : sizeV x + sizeL xs2 + 1 + 1 ≤ f + 1 := hsz
          cases xs2 with
          | nil =>
            show parseArrE (f + 1) (serV [','] [':'] x ++ ']' :: rest) = _
            rw [hH]
            simp only [List.cons_append]
            rw [parseArrE.eq_def]
            dsimp only
            rw [if_neg hcne]
            rw [← List.cons_append, ← hH]
            rw [(ih f (by omega)).1 x (']' :: rest) hw1 (by omega) (by rfl)]
            dsimp only
            rw [if_neg (by decide), if_pos rfl]
          | cons y xs3 =>
            show parseArrE (f + 1)
              ((serV [','] [':'] x ++ [','] ++ serArr [','] [':'] (y :: xs3))
                ++ ']' :: rest) = _
            simp only [List.append_assoc, List.singleton_append, List.nil_append]
            rw [hH]
            simp only [List.cons_append]
            rw [parseArrE.eq_def]
            dsimp only
            rw [if_neg hcne]
            rw [← List.cons_append, ← hH]
            rw [(ih f (by omega)).1 x
              (',' :: (serArr [','] [':'] (y :: xs3) ++ ']' :: rest)) hw1
              (by omega) (by rfl)]
            dsimp only
            rw [if_pos rfl]
            have hsz3 : sizeL (y :: xs3) + 1 ≤ f := by
              have he : sizeL (x :: y :: xs3)
                  = sizeV x + sizeL (y :: xs3) + 1 := rfl
              omega
            rw [(ih f (by omega)).2.1 (y :: xs3) rest hw2 hsz3 hdel]
    · intro kvs rest hwf hsz hdel
      cases fuel with
      | zero => exact absurd hsz (by omega)
      | succ f =>
        cases kvs with
        | nil =>
          show parseObjE (f + 1) ([] ++ '\x7d' :: rest) = _
          simp only [List.nil_append]
          rw [parseObjE.eq_def]
          dsimp only
          rw [if_pos rfl]
        | cons kv kvs2 =>
          obtain ⟨k, v⟩ := kv
          have hwx : (wfV v && wfO kvs2) = true := hwf
          obtain ⟨hw1, hw2⟩ : wfV v = true ∧ wfO kvs2 = true := by simpa using hwx
          have hsz2 : sizeV v + sizeO kvs2 + 1 + 1 ≤ f + 1 := hsz
          cases kvs2 with
          | nil =>
            show parseObjE (f + 1)
              ((('"' :: (k.data.flatMap escChar ++ ['"'])) ++ [':']
                ++ serV [','] [':'] v) ++ '\x7d' :: rest) = _
            simp only [List.cons_append, List.append_assoc, List.singleton_append, List.nil_append]
            rw [parseObjE.eq_def]
            dsimp only
            rw [if_neg (by decide), if_pos rfl]
            rw [parseStrBody_escape k.data
              (':' :: (serV [','] [':'] v ++ '\x7d' :: rest))]
            dsimp only
            rw [if_pos rfl]
            rw [(ih f (by omega)).1 v ('\x7d' :: rest) hw1 (by omega) (by rfl)]
            dsimp only
            rw [if_neg (by decide), if_pos rfl]
          | cons p kvs3 =>
            show parseObjE (f + 1)
              ((('"' :: (k.data.flatMap escChar ++ ['"'])) ++ [':']
                ++ serV [','] [':'] v ++ [','] ++ serObj [','] [':'] (p :: kvs3))
                ++ '\x7d' :: rest) = _
            simp only [List.cons_append, List.append_assoc, List.singleton_append, List.nil_append]
            rw [parseObjE.eq_def]
            dsimp only
            rw [if_neg (by decide), if_pos rfl]
            rw [parseStrBody_escape k.data
              (':' :: (serV [','] [':'] v
                ++ ',' :: (serObj [','] [':'] (p :: kvs3) ++ '\x7d' :: rest)))]
            dsimp only
            rw [if_pos rfl]
            rw [(ih f (by omega)).1 v
              (',' :: (serObj [','] [':'] (p :: kvs3) ++ '\x7d' :: rest)) hw1
              (by omega) (by rfl)]
            dsimp only
            rw [if_pos rfl]
            have hsz3 : sizeO (p :: kvs3) + 1 ≤ f := by
              have he : sizeO ((k, v) :: p :: kvs3)
                  = sizeV v + sizeO (p :: kvs3) + 1 := rfl
              omega
            rw [(ih f (by omega)).2.2 (p :: kvs3) rest hw2 hsz3 hdel]

theorem serC_inj (v₁ v₂ : JVal) (h1 : wfV v₁ = true) (h2 : wfV v₂ = true)
    (h : serV [','] [':'] v₁ = serV [','] [':'] v₂) : v₁ = v₂ := by
  have r1 := (parse_rt (max (sizeV v₁ + 1) (sizeV v₂ + 1))).1 v₁ [] h1
    (le_max_left _ _) rfl
  have r2 := (parse_rt (max (sizeV v₁ + 1) (sizeV v₂ + 1))).1 v₂ [] h2
    (le_max_right _ _) rfl
  rw [List.append_nil] at r1 r2
  rw [h, r2] at r1
  injection r1 with r3
  injection r3 with r4
  exact r4.symm

/-! ### Key ordering -/

theorem charListLe_nil (bs : List Char) : charListLe [] bs = true := by
  cases bs <;> rfl

theorem charListLe_cons (a b : Char) (as bs : List Char) :
    charListLe (a :: as) (b :: bs) =
      if a.toNat < b.toNat then true
      else if a.toNat = b.toNat then charListLe as bs
      else false := rfl

theorem charListLe_total (as bs : List Char) :
    charListLe as bs = true ∨ charListLe bs as = true := by
  induction as generalizing bs with
  | nil => left; exact charListLe_nil bs
  | cons a as ih =>
    cases bs with
    | nil => right; exact charListLe_nil _
    | cons b bs =>
      rw [charListLe_cons, charListLe_cons]
      by_cases h1 : a.toNat < b.toNat
      · left
        rw [if_pos h1]
      · by_cases h2 : a.toNat = b.toNat
        · rw [if_neg h1, if_pos h2, if_neg (by omega), if_pos (by omega)]
          exact ih bs
        · right
          rw [if_pos (by omega)]

theorem charListLe_trans (as bs cs : List Char) (h1 : charListLe as bs = true)
    (h2 : charListLe bs cs = true) : charListLe as cs = true := by
  induction as generalizing bs cs with
  | nil => exact charListLe_nil cs
  | cons a as ih =>
    cases bs with
    | nil => rw [show charListLe (a :: as) [] = false from rfl] at h1; cases h1
    | cons b bs =>
      cases cs with
      | nil => rw [show charListLe (b :: bs) [] = false from rfl] at h2; cases h2
      | cons c cs =>
        rw [charListLe_cons] at h1 h2 ⊢
        by_cases hab : a.toNat < b.toNat
        · by_cases hbc : b.toNat < c.toNat
          · rw [if_pos (by omega)]
          · by_cases hbc2 : b.toNat = c.toNat
            · rw [if_pos (by omega)]
            · rw [if_neg hbc, if_neg hbc2] at h2
              cases h2
        · by_cases hab2 : a.toNat = b.toNat
          · rw [if_neg hab, if_pos hab2] at h1
            by_cases hbc : b.toNat < c.toNat
            · rw [if_pos (by omega)]
            · by_cases hbc2 : b.toNat = c.toNat
              · rw [if_neg hbc, if_pos hbc2] at h2
                rw [if_neg (by omega), if_pos (by omega)]
                exact ih bs cs h1 h2
              · rw [if_neg hbc, if_neg hbc2] at h2
                cases h2
          · rw [if_neg hab, if_neg hab2] at h1
            cases h1

theorem charListLe_antisymm (as bs : List Char) (h1 : charListLe as bs = true)
    (h2 : charListLe bs as = true) : as = bs := by
  induction as generalizing bs with
  | nil =>
    cases bs with
    | nil => rfl
    | cons b bs => rw [show charListLe (b :: bs) [] = false from rfl] at h2; cases h2
  | cons a as ih =>
    cases bs with
    | nil => rw [show charListLe (a :: as) [] = false from rfl] at h1; cases h1
    | cons b bs =>
      rw [charListLe_cons] at h1 h2
      by_cases hab : a.toNat < b.toNat
      · rw [if_neg (by omega), if_neg (by omega)] at h2
        cases h2
      · by_cases hab2 : a.toNat = b.toNat
        · rw [if_neg hab, if_pos hab2] at h1
          rw [if_neg (by omega), if_pos (by omega)] at h2
          have ha : a = b := by
            have := congrArg Char.ofNat hab2
            rwa [Char.ofNat_toNat, Char.ofNat_toNat] at this
          rw [ha, ih bs h1 h2]
        · rw [if_neg hab, if_neg hab2] at h1
          cases h1

instance : IsTotal (String × JVal) keyLe :=
  ⟨fun p q => charListLe_total p.1.data q.1.data⟩

instance : IsTrans (String × JVal) keyLe :=
  ⟨fun _ _ _ h1 h2 => charListLe_trans _ _ _ h1 h2⟩

theorem keyLe_antisymm_fst {p q : String × JVal} (h1 : keyLe p q) (h2 : keyLe q p) :
    p.1 = q.1 :=
  String.ext (charListLe_antisymm _ _ h1 h2)

theorem sorted_perm_nodup_eq : ∀ {l₁ l₂ : List (String × JVal)}, l₁.Perm l₂ →
    l₁.Sorted keyLe → l₂.Sorted keyLe → (l₁.map Prod.fst).Nodup → l₁ = l₂ := by
  intro l₁
  induction l₁ with
  | nil =>
    intro l₂ hp _ _ _
    exact (List.Perm.eq_nil hp.symm).symm
  | cons a t ih =>
    intro l₂ hp hs1 hs2 hnd
    cases l₂ with
    | nil =>
      have := List.Perm.eq_nil hp
      simp at this
    | cons b t₂ =>
      have hab : a = b := by
        have hbmem : b ∈ a :: t := hp.mem_iff.mpr (List.mem_cons_self b t₂)
        have hamem : a ∈ b :: t₂ := hp.mem_iff.mp (List.mem_cons_self a t)
        rcases List.mem_cons.mp hbmem with h | h
        · exact h.symm
        · rcases List.mem_cons.mp hamem with h2 | h2
          · exact h2
          · exfalso
            have hle1 : keyLe a b := (List.sorted_cons.mp hs1).1 b h
            have hle2 : keyLe b a := (List.sorted_cons.mp hs2).1 a h2
            have hfst : a.1 = b.1 := keyLe_antisymm_fst hle1 hle2
            have hmem2 : a.1 ∈ t.map Prod.fst := by
              rw [hfst]
              exact List.mem_map_of_mem Prod.fst h
            rw [List.map_cons, List.nodup_cons] at hnd
            exact hnd.1 hmem2
      subst hab
      have hp2 := hp.cons_inv
      rw [ih hp2 (List.sorted_cons.mp hs1).2 (List.sorted_cons.mp hs2).2
        (by rw [List.map_cons, List.nodup_cons] at hnd; exact hnd.2)]

theorem insertionSort_eq_of_perm (l₁ l₂ : List (String × JVal)) (hp : l₁.Perm l₂)
    (hnd : (l₁.map Prod.fst).Nodup) :
    List.insertionSort keyLe l₁ = List.insertionSort keyLe l₂ := by
  apply sorted_perm_nodup_eq
  · exact (List.perm_insertionSort keyLe l₁).trans
      (hp.trans (List.perm_insertionSort keyLe l₂).symm)
  · exact List.sorted_insertionSort keyLe l₁
  · exact List.sorted_insertionSort keyLe l₂
  · exact (((List.perm_insertionSort keyLe l₁).map Prod.fst).nodup_iff).mpr hnd

mutual
/-- Values equal up to reordering of object entries (the relation between
two Python dicts built with different insertion orders): entries may be
permuted at every object node, values related recursively. -/
inductive JPerm : JVal → JVal → Prop where
  | nullP : JPerm .jnull .jnull
  | boolP (b : Bool) : JPerm (.jbool b) (.jbool b)
  | intP (n : Int) : JPerm (.jint n) (.jint n)
  | floatP (f : PyFloat) : JPerm (.jfloat f) (.jfloat f)
  | strP (s : String) : JPerm (.jstr s) (.jstr s)
  | arrP {xs ys : List JVal} : JPermL xs ys → JPerm (.jarr xs) (.jarr ys)
  | objP {l₁ l₂ l₃ : List (String × JVal)} :
      JPermO l₁ l₂ → l₂.Perm l₃ → JPerm (.jobj l₁) (.jobj l₃)

/-- `JPerm` on array element lists, positionwise. -/
inductive JPermL : List JVal → List JVal → Prop where
  | nil : JPermL [] []
  | cons {x y : JVal} {xs ys : List JVal} :
      JPerm x y → JPermL xs ys → JPermL (x :: xs) (y :: ys)

/-- `JPerm` on object entry lists, positionwise with equal keys. -/
inductive JPermO : List (String × JVal) → List (String × JVal) → Prop where
  | nil : JPermO [] []
  | cons {k : String} {v w : JVal} {l₁ l₂ : List (String × JVal)} :
      JPerm v w → JPermO l₁ l₂ → JPermO ((k, v) :: l₁) ((k, w) :: l₂)
end

/-- Does the key list contain a duplicate? -/
def hasDupKeys : List String → Bool
  | [] => false
  | k :: ks => ks.contains k || hasDupKeys ks

mutual
/-- Object keys are duplicate-free throughout the value, as they are for
any value built from Python dicts. -/
def ndV : JVal → Bool
  | .jarr xs => ndL xs
  | .jobj kvs => !(hasDupKeys (kvs.map Prod.fst)) && ndO kvs
  | _ => true

/-- `ndV` over array elements. -/
def ndL : List JVal → Bool
  | [] => true
  | x :: xs => ndV x && ndL xs

/-- `ndV` over object entry values. -/
def ndO : List (String × JVal) → Bool
  | [] => true
  | (_, v) :: kvs => ndV v && ndO kvs
end

theorem hasDupKeys_false_nodup (ks : List String) (h : hasDupKeys ks = false) :
    ks.Nodup := by
  induction ks with
  | nil => exact List.nodup_nil
  | cons k ks ih =>
    unfold hasDupKeys at h
    rw [Bool.or_eq_false_iff] at h
    rw [List.nodup_cons]
    refine ⟨?_, ih h.2⟩
    have := h.1
    simp at this
    exact this

theorem sortAllObj_map (l : List (String × JVal)) :
    sortAllObj l = l.map (fun p => (p.1, sortAll p.2)) := by
  induction l with
  | nil => rfl
  | cons p rest ih =>
    obtain ⟨k, v⟩ := p
    show (k, sortAll v) :: sortAllObj rest = _
    rw [ih, List.map_cons]

theorem keys_sortAllObj (l : List (String × JVal)) :
    (sortAllObj l).map Prod.fst = l.map Prod.fst := by
  rw [sortAllObj_map, List.map_map]
  rfl

theorem jpermO_keys : ∀ {l₁ l₂ : List (String × JVal)}, JPermO l₁ l₂ →
    l₁.map Prod.fst = l₂.map Prod.fst
  | _, _, .nil => rfl
  | _, _, @JPermO.cons k v w t₁ t₂ hv hl => by
    rw [List.map_cons, List.map_cons, jpermO_keys hl]

mutual
theorem jperm_sortAll : ∀ {v w : JVal}, JPerm v w → ndV v = true →
    sortAll v = sortAll w
  | _, _, .nullP, _ => rfl
  | _, _, .boolP b, _ => rfl
  | _, _, .intP n, _ => rfl
  | _, _, .floatP f, _ => rfl
  | _, _, .strP s, _ => rfl
  | _, _, .arrP hl, hn => congrArg JVal.jarr (jpermL_sortAll hl hn)
  | _, _, @JPerm.objP l₁ l₂ l₃ ho hp, hn => by
    obtain ⟨hnd, hvals⟩ : hasDupKeys (l₁.map Prod.fst) = false ∧ ndO l₁ = true := by
      simpa [ndV] using hn
    show JVal.jobj (List.insertionSort keyLe (sortAllObj l₁))
      = JVal.jobj (List.insertionSort keyLe (sortAllObj l₃))
    have h1 : sortAllObj l₁ = sortAllObj l₂ := jpermO_sortAll ho hvals
    have hperm : (sortAllObj l₂).Perm (sortAllObj l₃) := by
      rw [sortAllObj_map, sortAllObj_map]
      exact hp.map _
    have hnd2 : ((sortAllObj l₂).map Prod.fst).Nodup := by
      rw [keys_sortAllObj, ← jpermO_keys ho]
      exact hasDupKeys_false_nodup (l₁.map Prod.fst) hnd
    rw [h1, insertionSort_eq_of_perm _ _ hperm hnd2]

theorem jpermL_sortAll : ∀ {xs ys : List JVal}, JPermL xs ys → ndL xs = true →
    sortAllArr xs = sortAllArr ys
  | _, _, .nil, _ => rfl
  | _, _, @JPermL.cons x y xs ys hx hxs, hn => by
    obtain ⟨h1, h2⟩ : ndV x = true ∧ ndL xs = true := by simpa [ndL] using hn
    show sortAll x :: sortAllArr xs = sortAll y :: sortAllArr ys
    rw [jperm_sortAll hx h1, jpermL_sortAll hxs h2]

theorem jpermO_sortAll : ∀ {l₁ l₂ : List (String × JVal)}, JPermO l₁ l₂ →
    ndO l₁ = true → sortAllObj l₁ = sortAllObj l₂
  | _, _, .nil, _ => rfl
  | _, _, @JPermO.cons k v w t₁ t₂ hv hl, hn => by
    obtain ⟨h1, h2⟩ : ndV v = true ∧ ndO t₁ = true := by simpa [ndO] using hn
    show (k, sortAll v) :: sortAllObj t₁ = (k, sortAll w) :: sortAllObj t₂
    rw [jperm_sortAll hv h1, jpermO_sortAll hl h2]
end

/-- Strict lexicographic (code-point) comparison, Python string `<`. -/
def charListLt : List Char → List Char → Bool
  | [], [] => false
  | [], _ :: _ => true
  | _ :: _, [] => false
  | a :: as, b :: bs =>
    if a.toNat < b.toNat then true
    else if a.toNat = b.toNat then charListLt as bs
    else false

theorem charListLt_le (as bs : List Char) (h : charListLt as bs = true) :
    charListLe as bs = true := by
  induction as generalizing bs with
  | nil => exact charListLe_nil bs
  | cons a as ih =>
    cases bs with
    | nil => rw [show charListLt (a :: as) [] = false from rfl] at h; cases h
    | cons b bs =>
      rw [show charListLt (a :: as) (b :: bs) =
        (if a.toNat < b.toNat then true
         else if a.toNat = b.toNat then charListLt as bs else false) from rfl] at h
      rw [charListLe_cons]
      by_cases h1 : a.toNat < b.toNat
      · rw [if_pos h1]
      · by_cases h2 : a.toNat = b.toNat
        · rw [if_neg h1, if_pos h2] at h ⊢
          exact ih bs h
        · rw [if_neg h1, if_neg h2] at h
          cases h

theorem charListLt_irrefl (as : List Char) : charListLt as as = false := by
  induction as with
  | nil => rfl
  | cons a as ih =>
    rw [show charListLt (a :: as) (a :: as) =
      (if a.toNat < a.toNat then true
       else if a.toNat = a.toNat then charListLt as as else false) from rfl]
    rw [if_neg (by omega), if_pos rfl, ih]

theorem charListLt_le_trans (as bs cs : List Char) (h1 : charListLt as bs = true)
    (h2 : charListLe bs cs = true) : charListLt as cs = true := by
  induction as generalizing bs cs with
  | nil =>
    cases bs with
    | nil => rw [show charListLt ([] : List Char) [] = false from rfl] at h1; cases h1
    | cons b bs =>
      cases cs with
      | nil => rw [show charListLe (b :: bs) [] = false from rfl] at h2; cases h2
      | cons c cs => rfl
  | cons a as ih =>
    cases bs with
    | nil => rw [show charListLt (a :: as) [] = false from rfl] at h1; cases h1
    | cons b bs =>
      cases cs with
      | nil => rw [show charListLe (b :: bs) [] = false from rfl] at h2; cases h2
      | cons c cs =>
        rw [show charListLt (a :: as) (b :: bs) =
          (if a.toNat < b.toNat then true
           else if a.toNat = b.toNat then charListLt as bs else false) from rfl] at h1
        rw [charListLe_cons] at h2
        rw [show charListLt (a :: as) (c :: cs) =
          (if a.toNat < c.toNat then true
           else if a.toNat = c.toNat then charListLt as cs else false) from rfl]
        by_cases hab : a.toNat < b.toNat
        · by_cases hbc : b.toNat < c.toNat
          · rw [if_pos (by omega)]
          · by_cases hbc2 : b.toNat = c.toNat
            · rw [if_pos (by omega)]
            · rw [if_neg hbc, if_neg hbc2] at h2
              cases h2
        · by_cases hab2 : a.toNat = b.toNat
          · rw [if_neg hab, if_pos hab2] at h1
            by_cases hbc : b.toNat < c.toNat
            · rw [if_pos (by omega)]
            · by_cases hbc2 : b.toNat = c.toNat
              · rw [if_neg hbc, if_pos hbc2] at h2
                rw [if_neg (by omega), if_pos (by omega)]
                exact ih bs cs h1 h2
              · rw [if_neg hbc, if_neg hbc2] at h2
                cases h2
          · rw [if_neg hab, if_neg hab2] at h1
            cases h1

theorem charListLt_ne (as bs : List Char) (h : charListLt as bs = true) :
    as ≠ bs := by
  intro he
  subst he
  rw [charListLt_irrefl] at h
  cases h

/-- Object entries are in strictly increasing key order (which also rules
out duplicate keys): the canonical order `sort_keys=True` produces. -/
def sortedKeysB : List (String × JVal) → Bool
  | [] => true
  | [_] => true
  | p :: q :: rest => charListLt p.1.data q.1.data && sortedKeysB (q :: rest)

theorem sortedKeysB_tail (p : String × JVal) (l : List (String × JVal))
    (h : sortedKeysB (p :: l) = true) : sortedKeysB l = true := by
  cases l with
  | nil => rfl
  | cons q rest =>
    have : (charListLt p.1.data q.1.data && sortedKeysB (q :: rest)) = true := h
    exact (Bool.and_eq_true_iff.mp this).2

theorem sortedKeysB_head_lt (p : String × JVal) (l : List (String × JVal))
    (h : sortedKeysB (p :: l) = true) :
    ∀ q ∈ l, charListLt p.1.data q.1.data = true := by
  induction l generalizing p with
  | nil => intro q hq; simp at hq
  | cons q rest ih =>
    intro r hr
    have h2 : (charListLt p.1.data q.1.data && sortedKeysB (q :: rest)) = true := h
    obtain ⟨hlt, htail⟩ := Bool.and_eq_true_iff.mp h2
    rcases List.mem_cons.mp hr with rfl | hr2
    · exact hlt
    · have := ih q htail r hr2
      exact charListLt_le_trans _ _ _ hlt (charListLt_le _ _ this)

theorem sortedKeysB_sorted (l : List (String × JVal)) (h : sortedKeysB l = true) :
    l.Sorted keyLe := by
  induction l with
  | nil => exact List.sorted_nil
  | cons p rest ih =>
    rw [List.sorted_cons]
    refine ⟨?_, ih (sortedKeysB_tail p rest h)⟩
    intro q hq
    exact charListLt_le _ _ (sortedKeysB_head_lt p rest h q hq)

theorem sortedKeysB_nodup (l : List (String × JVal)) (h : sortedKeysB l = true) :
    (l.map Prod.fst).Nodup := by
  induction l with
  | nil => exact List.nodup_nil
  | cons p rest ih =>
    rw [List.map_cons, List.nodup_cons]
    refine ⟨?_, ih (sortedKeysB_tail p rest h)⟩
    intro hmem
    rcases List.mem_map.mp hmem with ⟨q, hq, hfst⟩
    have hlt := sortedKeysB_head_lt p rest h q hq
    have := charListLt_ne _ _ hlt
    rw [hfst] at this
    exact this rfl

mutual
/-- A value is in canonical form: floats in shortest form and every object
already in strictly increasing key order. -/
def canonV : JVal → Bool
  | .jfloat f => wfF f
  | .jarr xs => canonL xs
  | .jobj kvs => sortedKeysB kvs && canonO kvs
  | _ => true

/-- `canonV` over array elements. -/
def canonL : List JVal → Bool
  | [] => true
  | x :: xs => canonV x && canonL xs

/-- `canonV` over object entry values. -/
def canonO : List (String × JVal) → Bool
  | [] => true
  | (_, v) :: kvs => canonV v && canonO kvs
end

mutual
theorem canonV_wfV : ∀ v : JVal, canonV v = true → wfV v = true
  | .jnull, _ => rfl
  | .jbool _, _ => rfl
  | .jint _, _ => rfl
  | .jstr _, _ => rfl
  | .jfloat f, h => h
  | .jarr xs, h => canonL_wfL xs h
  | .jobj kvs, h => by
    obtain ⟨h1, h2⟩ : sortedKeysB kvs = true ∧ canonO kvs = true := by
      simpa [canonV] using h
    exact canonO_wfO kvs h2

theorem canonL_wfL : ∀ xs : List JVal, canonL xs = true → wfL xs = true
  | [], _ => rfl
  | x :: xs, h => by
    obtain ⟨h1, h2⟩ : canonV x = true ∧ canonL xs = true := by
      simpa [canonL] using h
    show (wfV x && wfL xs) = true
    rw [canonV_wfV x h1, canonL_wfL xs h2]
    rfl

theorem canonO_wfO : ∀ kvs : List (String × JVal), canonO kvs = true → wfO kvs = true
  | [], _ => rfl
  | (k, v) :: kvs, h => by
    obtain ⟨h1, h2⟩ : canonV v = true ∧ canonO kvs = true := by
      simpa [canonO] using h
    show (wfV v && wfO kvs) = true
    rw [canonV_wfV v h1, canonO_wfO kvs h2]
    rfl
end

mutual
theorem canonV_sortAll : ∀ v : JVal, canonV v = true → sortAll v = v
  | .jnull, _ => rfl
  | .jbool _, _ => rfl
  | .jint _, _ => rfl
  | .jstr _, _ => rfl
  | .jfloat _, _ => rfl
  | .jarr xs, h => congrArg JVal.jarr (canonL_sortAll xs h)
  | .jobj kvs, h => by
    obtain ⟨h1, h2⟩ : sortedKeysB kvs = true ∧ canonO kvs = true := by
      simpa [canonV] using h
    show JVal.jobj (List.insertionSort keyLe (sortAllObj kvs)) = JVal.jobj kvs
    rw [canonO_sortAll kvs h2,
      List.Sorted.insertionSort_eq (sortedKeysB_sorted kvs h1)]

theorem canonL_sortAll : ∀ xs : List JVal, canonL xs = true → sortAllArr xs = xs
  | [], _ => rfl
  | x :: xs, h => by
    obtain ⟨h1, h2⟩ : canonV x = true ∧ canonL xs = true := by
      simpa [canonL] using h
    show sortAll x :: sortAllArr xs = x :: xs
    rw [canonV_sortAll x h1, canonL_sortAll xs h2]

theorem canonO_sortAll : ∀ kvs : List (String × JVal), canonO kvs = true →
    sortAllObj kvs = kvs
  | [], _ => rfl
  | (k, v) :: kvs, h => by
    obtain ⟨h1, h2⟩ : canonV v = true ∧ canonO kvs = true := by
      simpa [canonO] using h
    show (k, sortAll v) :: sortAllObj kvs = (k, v) :: kvs
    rw [canonV_sortAll v h1, canonO_sortAll kvs h2]
end

/-! ### The submission client -/

/-- The Claim payload assembled in `submit_example`, field for field. -/
structure Claim where
  task_id : String
  miner_id : Int
  performance : PyFloat
  artifact_hash : String
  hyperparameters : List (String × JVal)
  timestamp : Int
  nonce : Int

/-- The payload dict of `submit_example`, in its insertion order. -/
def claimToJVal (c : Claim) : JVal :=
  .jobj [("task_id", .jstr c.task_id), ("miner_id", .jint c.miner_id),
         ("performance", .jfloat c.performance),
         ("artifact_hash", .jstr c.artifact_hash),
         ("hyperparameters", .jobj c.hyperparameters),
         ("timestamp", .jint c.timestamp), ("nonce", .jint c.nonce)]

/-- The canonical bytes `sign_payload` signs for a Claim. -/
def canonBytes (c : Claim) : List Char := sign_payload_msg (claimToJVal c)

/-- A Python value passed as a hyperparameter entry: either one the `json`
module can serialize, or one on which `json.dump` raises `TypeError`
(a set, a function, a custom object, …). -/
inductive PyVal where
  | js (v : JVal) : PyVal
  | nonSerializable : PyVal

/-- Serialize a hyperparameter dict if every value is serializable
(`none` models `json.dump`/`json.dumps` raising `TypeError`). -/
def tryToJVal : List (String × PyVal) → Option (List (String × JVal))
  | [] => some []
  | (k, .js v) :: rest =>
    match tryToJVal rest with
    | some l => some ((k, v) :: l)
    | none => none
  | (_, .nonSerializable) :: _ => none

/-- The zip archive built by `build_repro_package`, by member file name.
The zip container's byte layout is irrelevant to every claim; only which
members made it into the archive matters. -/
structure ReproPackage where
  files : List String
deriving DecidableEq

/-- `build_repro_package(hyperparams, out_path)`: write
`hyperparameters.json` (raising `TypeError` on unserializable input), copy
`train.py` with `os.system("cp …")` — whose exit code the source ignores —
and zip whatever ended up in the temp directory.  `cpExitCode` is the
status of the `cp` child process; a nonzero status leaves `train.py` out
of the archive and is otherwise invisible to the function. -/
def build_repro_package (hyper : List (String × PyVal)) (cpExitCode : Nat) :
    Except String ReproPackage :=
  match tryToJVal hyper with
  | none => .error "TypeError: object is not JSON serializable"
  | some _ =>
    .ok ⟨["hyperparameters.json"] ++ (if cpExitCode = 0 then ["train.py"] else [])⟩

/-- Bytes of the produced archive, as hashed by `sha256_file`; injective
encoding of the member list (its exact layout is irrelevant here). -/
def zipBytes (p : ReproPackage) : List Nat :=
  (p.files.flatMap (fun n => n.data)).map Char.toNat

/-- The multipart unit POSTed to `SERVER + "/submit"`: the payload part
(`json.dumps(payload)` with default formatting), the canonical bytes the
signature covers, and the artifact bytes. -/
structure WireRequest where
  payloadPart : List Char
  signedMsg : List Char
  artifactPart : List Nat

/-- `submit_example()` with its inputs made explicit: the hyperparameter
dict, the exit code of the `cp` invocation, and the sampled timestamp and
nonce.  Errors propagate as Python exceptions do: a failure before the
POST yields `.error` and no request; otherwise the function produces the
request it sends. -/
def submit_example (hyper : List (String × PyVal)) (cpExitCode : Nat)
    (timestamp : Int) (nonce : Int) : Except String WireRequest :=
  match build_repro_package hyper cpExitCode with
  | .error e => .error e
  | .ok pkg =>
    match tryToJVal hyper with
    | none => .error "TypeError: object is not JSON serializable"
    | some hv =>
      let payload := claimToJVal
        ⟨"task-prod-001", 1, ⟨false, 92, -2⟩, sha256_file (zipBytes pkg), hv,
          timestamp, nonce⟩
      .ok ⟨dumpsDefault payload, sign_payload_msg payload, zipBytes pkg⟩

/-- The hyperparameter dict literal of `submit_example`:
`\x7b"layers": [128, 64], "activation": "relu", "lr": 0.001\x7d`. -/
def exampleHyper : List (String × PyVal) :=
  [("layers", .js (.jarr [.jint 128, .jint 64])),
   ("activation", .js (.jstr "relu")),
   ("lr", .js (.jfloat ⟨false, 1, -3⟩))]

/-- The same dict as a JSON value. -/
def exampleHyperJ : List (String × JVal) :=
  [("layers", .jarr [.jint 128, .jint 64]), ("activation", .jstr "relu"),
   ("lr", .jfloat ⟨false, 1, -3⟩)]

/-- Did the call succeed (no exception reached the caller)? -/
def isOkE {ε α : Type} : Except ε α → Bool
  | .ok _ => true
  | .error _ => false

/-! ### Length comparison between canonical and default serialization -/

theorem serObj_length_eq (isep ksep : List Char) :
    ∀ l : List (String × JVal), (serObj isep ksep l).length =
      (l.map (fun p => (serStr p.1).length + ksep.length
        + (serV isep ksep p.2).length)).sum + isep.length * (l.length - 1)
  | [] => by simp [serObj]
  | [(k, v)] => by
    show ((serStr k ++ ksep) ++ serV isep ksep v).length = _
    simp [List.length_append]
    omega
  | (k, v) :: p :: rest => by
    show ((((serStr k ++ ksep) ++ serV isep ksep v) ++ isep)
      ++ serObj isep ksep (p :: rest)).length = _
    rw [List.length_append, List.length_append, List.length_append,
      serObj_length_eq isep ksep (p :: rest)]
    simp only [List.map_cons, List.sum_cons, List.length_cons, Nat.add_sub_cancel,
      List.length_append, Nat.mul_succ]
    omega

theorem serObj_length_perm (isep ksep : List Char) {l₁ l₂ : List (String × JVal)}
    (hp : l₁.Perm l₂) :
    (serObj isep ksep l₁).length = (serObj isep ksep l₂).length := by
  rw [serObj_length_eq, serObj_length_eq, (hp.map _).sum_eq, hp.length_eq]

mutual
theorem lenLe_V : ∀ v : JVal,
    (serV [','] [':'] v).length ≤ (serV [',', ' '] [':', ' '] v).length
  | .jnull => le_refl _
  | .jbool b => by cases b <;> exact le_refl _
  | .jint n => le_refl _
  | .jfloat f => le_refl _
  | .jstr s => le_refl _
  | .jarr xs => by
    show ('[' :: (serArr [','] [':'] xs ++ [']'])).length
      ≤ ('[' :: (serArr [',', ' '] [':', ' '] xs ++ [']'])).length
    simp only [List.length_cons, List.length_append]
    have := lenLe_L xs
    omega
  | .jobj kvs => by
    show ('\x7b' :: (serObj [','] [':'] kvs ++ ['\x7d'])).length
      ≤ ('\x7b' :: (serObj [',', ' '] [':', ' '] kvs ++ ['\x7d'])).length
    simp only [List.length_cons, List.length_append]
    have := lenLe_O kvs
    omega

theorem lenLe_L : ∀ xs : List JVal,
    (serArr [','] [':'] xs).length ≤ (serArr [',', ' '] [':', ' '] xs).length
  | [] => le_refl _
  | [x] => lenLe_V x
  | x :: y :: xs => by
    show ((serV [','] [':'] x ++ [',']) ++ serArr [','] [':'] (y :: xs)).length
      ≤ ((serV [',', ' '] [':', ' '] x ++ [',', ' '])
          ++ serArr [',', ' '] [':', ' '] (y :: xs)).length
    simp only [List.length_append]
    have h1 := lenLe_V x
    have h2 := lenLe_L (y :: xs)
    simp only [List.length_cons, List.length_nil] at *
    omega

theorem lenLe_O : ∀ l : List (String × JVal),
    (serObj [','] [':'] l).length ≤ (serObj [',', ' '] [':', ' '] l).length
  | [] => le_refl _
  | [(k, v)] => by
    show ((serStr k ++ [':']) ++ serV [','] [':'] v).length
      ≤ ((serStr k ++ [':', ' ']) ++ serV [',', ' '] [':', ' '] v).length
    simp only [List.length_append]
    have := lenLe_V v
    simp only [List.length_cons, List.length_nil] at *
    omega
  | (k, v) :: p :: rest => by
    show ((((serStr k ++ [':']) ++ serV [','] [':'] v) ++ [','])
        ++ serObj [','] [':'] (p :: rest)).length
      ≤ ((((serStr k ++ [':', ' ']) ++ serV [',', ' '] [':', ' '] v) ++ [',', ' '])
        ++ serObj [',', ' '] [':', ' '] (p :: rest)).length
    simp only [List.length_append]
    have h1 := lenLe_V v
    have h2 := lenLe_O (p :: rest)
    simp only [List.length_cons, List.length_nil] at *
    omega
end

theorem lenLt_obj (p : String × JVal) (rest : List (String × JVal)) :
    (serV [','] [':'] (.jobj (p :: rest))).length
      < (serV [',', ' '] [':', ' '] (.jobj (p :: rest))).length := by
  obtain ⟨k, v⟩ := p
  have hstrict : (serObj [','] [':'] ((k, v) :: rest)).length
      < (serObj [',', ' '] [':', ' '] ((k, v) :: rest)).length := by
    cases rest with
    | nil =>
      show ((serStr k ++ [':']) ++ serV [','] [':'] v).length
        < ((serStr k ++ [':', ' ']) ++ serV [',', ' '] [':', ' '] v).length
      simp only [List.length_append]
      have := lenLe_V v
      simp only [List.length_cons, List.length_nil] at *
      omega
    | cons q rest2 =>
      show ((((serStr k ++ [':']) ++ serV [','] [':'] v) ++ [','])
          ++ serObj [','] [':'] (q :: rest2)).length
        < ((((serStr k ++ [':', ' ']) ++ serV [',', ' '] [':', ' '] v) ++ [',', ' '])
          ++ serObj [',', ' '] [':', ' '] (q :: rest2)).length
      simp only [List.length_append]
      have h1 := lenLe_V v
      have h2 := lenLe_O (q :: rest2)
      simp only [List.length_cons, List.length_nil] at *
      omega
  show ('\x7b' :: (serObj [','] [':'] ((k, v) :: rest) ++ ['\x7d'])).length
    < ('\x7b' :: (serObj [',', ' '] [':', ' '] ((k, v) :: rest) ++ ['\x7d'])).length
  simp only [List.length_cons, List.length_append]
  omega

mutual
theorem lenSort_V : ∀ v : JVal,
    (serV [','] [':'] (sortAll v)).length = (serV [','] [':'] v).length
  | .jnull => rfl
  | .jbool b => by cases b <;> rfl
  | .jint n => rfl
  | .jfloat f => rfl
  | .jstr s => rfl
  | .jarr xs => by
    show ('[' :: (serArr [','] [':'] (sortAllArr xs) ++ [']'])).length
      = ('[' :: (serArr [','] [':'] xs ++ [']'])).length
    simp only [List.length_cons, List.length_append]
    rw [lenSort_L xs]
  | .jobj kvs => by
    show ('\x7b' :: (serObj [','] [':']
        (List.insertionSort keyLe (sortAllObj kvs)) ++ ['\x7d'])).length
      = ('\x7b' :: (serObj [','] [':'] kvs ++ ['\x7d'])).length
    simp only [List.length_cons, List.length_append]
    rw [serObj_length_perm [','] [':'] (List.perm_insertionSort keyLe (sortAllObj kvs)),
      lenSort_O kvs]

theorem lenSort_L : ∀ xs : List JVal,
    (serArr [','] [':'] (sortAllArr xs)).length = (serArr [','] [':'] xs).length
  | [] => rfl
  | [x] => lenSort_V x
  | x :: y :: xs => by
    show ((serV [','] [':'] (sortAll x) ++ [','])
        ++ serArr [','] [':'] (sortAll y :: sortAllArr xs)).length
      = ((serV [','] [':'] x ++ [',']) ++ serArr [','] [':'] (y :: xs)).length
    simp only [List.length_append]
    rw [lenSort_V x]
    have := lenSort_L (y :: xs)
    show _ + (serArr [','] [':'] (sortAllArr (y :: xs))).length = _
    rw [this]

theorem lenSort_O : ∀ l : List (String × JVal),
    (serObj [','] [':'] (sortAllObj l)).length = (serObj [','] [':'] l).length
  | [] => rfl
  | [(k, v)] => by
    show ((serStr k ++ [':']) ++ serV [','] [':'] (sortAll v)).length
      = ((serStr k ++ [':']) ++ serV [','] [':'] v).length
    simp only [List.length_append]
    rw [lenSort_V v]
  | (k, v) :: p :: rest => by
    show ((((serStr k ++ [':']) ++ serV [','] [':'] (sortAll v)) ++ [','])
        ++ serObj [','] [':'] (sortAllObj (p :: rest))).length
      = ((((serStr k ++ [':']) ++ serV [','] [':'] v) ++ [','])
        ++ serObj [','] [':'] (p :: rest)).length
    simp only [List.length_append]
    rw [lenSort_V v, lenSort_O (p :: rest)]
end

/-! ### Character content of numeric renderings -/

theorem fixPart_mem (D : List Char) (E : Int) (hD : ∀ c ∈ D, c.isDigit = true) :
    ∀ c ∈ fixPart D E, c.isDigit = true ∨ c = '.' := by
  intro c hc
  unfold fixPart at hc
  split at hc
  · split at hc
    · rcases List.mem_append.mp hc with h1 | h2
      · rcases List.mem_append.mp h1 with h3 | h4
        · exact Or.inl (hD c h3)
        · rw [List.eq_of_mem_replicate h4]; left; decide
      · rcases List.mem_cons.mp h2 with rfl | h3
        · right; rfl
        · rcases List.mem_singleton.mp h3 with rfl; left; decide
    · rcases List.mem_append.mp hc with h1 | h2
      · exact Or.inl (hD c (List.mem_of_mem_take h1))
      · rcases List.mem_cons.mp h2 with rfl | h3
        · right; rfl
        · exact Or.inl (hD c (List.mem_of_mem_drop h3))
  · rcases List.mem_cons.mp hc with rfl | h1
    · left; decide
    · rcases List.mem_cons.mp h1 with rfl | h2
      · right; rfl
      · rcases List.mem_append.mp h2 with h3 | h4
        · rw [List.eq_of_mem_replicate h3]; left; decide
        · exact Or.inl (hD c h4)

theorem intRepr_no_sci_no_locale (n : Int) :
    'e' ∉ intRepr n ∧ ',' ∉ intRepr n := by
  have hdig := charDigits_isDigit n.natAbs
  constructor
  · intro hmem
    unfold intRepr at hmem
    split at hmem
    · rcases List.mem_cons.mp hmem with h | h
      · cases h
      · exact absurd (hdig 'e' h) (by decide)
    · exact absurd (hdig 'e' hmem) (by decide)
  · intro hmem
    unfold intRepr at hmem
    split at hmem
    · rcases List.mem_cons.mp hmem with h | h
      · cases h
      · exact absurd (hdig ',' h) (by decide)
    · exact absurd (hdig ',' hmem) (by decide)

theorem floatMag_mem (f : PyFloat) :
    ∀ c ∈ floatMag f, c.isDigit = true ∨ c = '.' ∨ c = 'e' ∨ c = '+' ∨ c = '-' := by
  intro c hc
  unfold floatMag at hc
  split at hc
  · rcases List.mem_append.mp hc with h1 | h2
    · rcases sciMantPart_mem _ c h1 with h3 | rfl
      · exact Or.inl (charDigits_isDigit _ c h3)
      · right; left; rfl
    · rcases expPart_mem _ c h2 with rfl | rfl | rfl | h3
      · right; right; left; rfl
      · right; right; right; left; rfl
      · right; right; right; right; rfl
      · exact Or.inl h3
  · rcases fixPart_mem _ _ (charDigits_isDigit f.mant) c hc with h | h
    · exact Or.inl h
    · right; left; exact h

theorem floatRepr_no_locale (f : PyFloat) : ',' ∉ floatRepr f := by
  intro hmem
  unfold floatRepr at hmem
  have hmag : ',' ∉ floatMag f := by
    intro h
    rcases floatMag_mem f ',' h with h1 | h1 | h1 | h1 | h1
    · exact absurd h1 (by decide)
    all_goals cases h1
  split at hmem
  · rcases List.mem_cons.mp hmem with h | h
    · cases h
    · exact hmag h
  · exact hmag hmem

theorem floatMag_e_iff (f : PyFloat) :
    'e' ∈ floatMag f ↔ (sciExp f < -4 ∨ 16 ≤ sciExp f) := by
  constructor
  · intro hmem
    by_contra hn
    unfold floatMag at hmem
    rw [if_neg hn] at hmem
    rcases fixPart_mem _ _ (charDigits_isDigit f.mant) 'e' hmem with h | h
    · exact absurd h (by decide)
    · cases h
  · intro h
    unfold floatMag
    rw [if_pos h]
    exact List.mem_append.mpr (Or.inr (List.mem_cons_self 'e' _))

theorem hasChar_mem (c : Char) (l : List Char) (h : hasChar c l = true) : c ∈ l := by
  induction l with
  | nil => cases h
  | cons x xs ih =>
    rw [hasChar_cons] at h
    split at h
    · rename_i hx; rw [hx]; exact List.mem_cons_self c xs
    · exact List.mem_cons_of_mem x (ih h)

theorem floatMag_dot_or_e (f : PyFloat) : '.' ∈ floatMag f ∨ 'e' ∈ floatMag f := by
  rcases Bool.or_eq_true_iff.mp (floatMag_has_dot_or_e f) with h | h
  · exact Or.inl (hasChar_mem _ _ h)
  · exact Or.inr (hasChar_mem _ _ h)

/-! ### Shape of the hex digest -/

theorem toHexChar_lower (n : Nat) : isLowerHex (toHexChar n) = true := by
  unfold toHexChar
  split <;> decide

theorem hex8_mem (w : Nat) : ∀ c ∈ hex8 w, isLowerHex c = true := by
  intro c hc
  unfold hex8 at hc
  simp only [List.mem_cons, List.not_mem_nil, or_false] at hc
  rcases hc with rfl | rfl | rfl | rfl | rfl | rfl | rfl | rfl <;>
    exact toHexChar_lower _

theorem hex8_length (w : Nat) : (hex8 w).length = 8 := rfl

theorem foldl_compress_length (bs : List (List Nat)) (h : List Nat) :
    h.length = 8 → (bs.foldl compress h).length = 8 := by
  induction bs generalizing h with
  | nil => exact fun hh => hh
  | cons b bs ih => exact fun _ => ih (compress h b) rfl

theorem flatMap_hex8_length (ws : List Nat) :
    (ws.flatMap hex8).length = 8 * ws.length := by
  induction ws with
  | nil => rfl
  | cons w ws ih =>
    rw [List.flatMap_cons, List.length_append, ih, hex8_length, List.length_cons]
    omega

/-! ### Membership in `floatRepr` -/

theorem mem_floatRepr_of_ne (f : PyFloat) (c : Char) (hc : c ≠ '-') :
    c ∈ floatRepr f ↔ c ∈ floatMag f := by
  unfold floatRepr
  split
  · simp [List.mem_cons, hc]
  · exact Iff.rfl


/-! ## Claim-level theorems -/

set_option maxRecDepth 200000
set_option maxHeartbeats 2000000

/-- Claim C1: the canonical serialization computed by `sign_payload`
(`json.dumps` with `sort_keys=True` and separators `(',', ':')`) is a pure
function of the payload's field values: any two payloads that agree up to
the insertion order of object keys (recursively, including the nested
hyperparameters mapping) and have duplicate-free keys serialize to
byte-identical output; repeated runs are identical because
`sign_payload_msg` is a function. -/
theorem claim_C1_key_order_independence (p₁ p₂ : JVal) (hperm : JPerm p₁ p₂)
    (hnd : ndV p₁ = true) : sign_payload_msg p₁ = sign_payload_msg p₂ := by
  unfold sign_payload_msg canonSer
  rw [jperm_sortAll hperm hnd]

/-- Witness for C1: the two insertion orders of `\x7b"a": 1, "b": 2\x7d`
produce the same canonical bytes. -/
theorem claim_C1_witness :
    JPerm (.jobj [("b", .jint 2), ("a", .jint 1)])
        (.jobj [("a", .jint 1), ("b", .jint 2)]) ∧
    ndV (.jobj [("b", .jint 2), ("a", .jint 1)]) = true ∧
    sign_payload_msg (.jobj [("b", .jint 2), ("a", .jint 1)])
      = sign_payload_msg (.jobj [("a", .jint 1), ("b", .jint 2)]) := by
  have hperm : JPerm (.jobj [("b", .jint 2), ("a", .jint 1)])
      (.jobj [("a", .jint 1), ("b", .jint 2)]) :=
    JPerm.objP (JPermO.cons (JPerm.intP 2) (JPermO.cons (JPerm.intP 1) JPermO.nil))
      (List.Perm.swap (("a", JVal.jint 1) : String × JVal) ("b", JVal.jint 2) [])
  have hnd : ndV (.jobj [("b", .jint 2), ("a", .jint 1)]) = true := by decide
  exact ⟨hperm, hnd, claim_C1_key_order_independence _ _ hperm hnd⟩

/-- `sortAll` on the payload of a Claim whose hyperparameters are already
in canonical form: the seven fields end up in sorted key order and the
hyperparameters object is unchanged. -/
theorem sortAll_claim (c : Claim) (h : canonV (.jobj c.hyperparameters) = true) :
    sortAll (claimToJVal c) =
      .jobj [("artifact_hash", .jstr c.artifact_hash),
             ("hyperparameters", .jobj c.hyperparameters),
             ("miner_id", .jint c.miner_id), ("nonce", .jint c.nonce),
             ("performance", .jfloat c.performance),
             ("task_id", .jstr c.task_id),
             ("timestamp", .jint c.timestamp)] := by
  obtain ⟨hs, hc⟩ : sortedKeysB c.hyperparameters = true
      ∧ canonO c.hyperparameters = true := by
    simpa [canonV] using h
  rw [show sortAll (claimToJVal c) =
      .jobj [("artifact_hash", .jstr c.artifact_hash),
             ("hyperparameters",
               .jobj (List.insertionSort keyLe (sortAllObj c.hyperparameters))),
             ("miner_id", .jint c.miner_id), ("nonce", .jint c.nonce),
             ("performance", .jfloat c.performance),
             ("task_id", .jstr c.task_id),
             ("timestamp", .jint c.timestamp)] from rfl]
  rw [canonO_sortAll _ hc,
    List.Sorted.insertionSort_eq (sortedKeysB_sorted _ hs)]

/-- The sorted payload of a Claim with canonical hyperparameters and a
shortest-form performance float is well formed. -/
theorem wf_sortedClaim (c : Claim) (h : canonV (.jobj c.hyperparameters) = true)
    (hp : wfF c.performance = true) :
    wfV (.jobj [("artifact_hash", .jstr c.artifact_hash),
                ("hyperparameters", .jobj c.hyperparameters),
                ("miner_id", .jint c.miner_id), ("nonce", .jint c.nonce),
                ("performance", .jfloat c.performance),
                ("task_id", .jstr c.task_id),
                ("timestamp", .jint c.timestamp)]) = true := by
  have hw : wfO c.hyperparameters = true := by
    have hv := canonV_wfV (.jobj c.hyperparameters) h
    simpa [wfV] using hv
  simp [wfV, wfO, hp, hw]

/-- Claim C2: the canonical serialization is injective on Claims — two
Claims with the same canonical bytes agree on every field, so any field
change invalidates a prior signature over the canonical bytes.  The
hypotheses pin the dict-backed fields to their canonical Python
representatives: hyperparameter objects carry sorted duplicate-free keys
and floats in shortest-repr form, as every value produced by a Python dict
and `repr` round trip does. -/
theorem claim_C2_canonical_injective (c₁ c₂ : Claim)
    (h1 : canonV (.jobj c₁.hyperparameters) = true)
    (h2 : canonV (.jobj c₂.hyperparameters) = true)
    (hp1 : wfF c₁.performance = true) (hp2 : wfF c₂.performance = true)
    (heq : canonBytes c₁ = canonBytes c₂) : c₁ = c₂ := by
  have e1 := sortAll_claim c₁ h1
  have e2 := sortAll_claim c₂ h2
  have w1 : wfV (sortAll (claimToJVal c₁)) = true := by
    rw [e1]; exact wf_sortedClaim c₁ h1 hp1
  have w2 : wfV (sortAll (claimToJVal c₂)) = true := by
    rw [e2]; exact wf_sortedClaim c₂ h2 hp2
  have hser : serV [','] [':'] (sortAll (claimToJVal c₁))
      = serV [','] [':'] (sortAll (claimToJVal c₂)) := heq
  have hj := serC_inj _ _ w1 w2 hser
  rw [e1, e2] at hj
  obtain ⟨t₁, m₁, p₁, a₁, hy₁, ts₁, n₁⟩ := c₁
  obtain ⟨t₂, m₂, p₂, a₂, hy₂, ts₂, n₂⟩ := c₂
  simp only [JVal.jobj.injEq, List.cons.injEq, Prod.mk.injEq, JVal.jstr.injEq,
    JVal.jint.injEq, JVal.jfloat.injEq, and_true, true_and] at hj
  obtain ⟨ha, hh, hm, hn, hp, ht, hts⟩ := hj
  simp only [Claim.mk.injEq]
  exact ⟨ht, hm, hp, ha, hh, hts, hn⟩

/-- A concrete Claim with canonical hyperparameters. -/
def claimW : Claim :=
  ⟨"task-prod-001", 1, ⟨false, 92, -2⟩, "abc",
   [("activation", .jstr "relu"), ("layers", .jarr [.jint 128, .jint 64]),
    ("lr", .jfloat ⟨false, 1, -3⟩)], 100, 5⟩

/-- Witness for C2 at a concrete Claim. -/
theorem claim_C2_witness :
    canonV (.jobj claimW.hyperparameters) = true ∧
    wfF claimW.performance = true ∧ claimW = claimW := by
  have h : canonV (.jobj claimW.hyperparameters) = true := by decide
  have hp : wfF claimW.performance = true := by decide
  exact ⟨h, hp, claim_C2_canonical_injective claimW claimW h h hp hp rfl⟩

/-- Claim C4: the incremental digest of `sha256_file` equals the one-shot
SHA-256 digest of the whole content, for every way of splitting the bytes
into chunks — in particular for the 8192-byte reads `sha256_file`
performs. -/
theorem claim_C4_chunking_invariance (content : List Nat)
    (chunks : List (List Nat)) (hsplit : chunks.flatten = content) :
    sha256_file content = sha256hex content ∧
    sha256Hexdigest (chunks.foldl sha256Update sha256Init)
      = sha256hex content :=
  ⟨sha256_file_eq content, sha256_fold_chunks content chunks hsplit⟩

/-- Witness for C4 at a concrete content and chunking. -/
theorem claim_C4_witness :
    ([[1], [2, 3]] : List (List Nat)).flatten = [1, 2, 3] ∧
    (sha256_file [1, 2, 3] = sha256hex [1, 2, 3] ∧
      sha256Hexdigest ([[1], [2, 3]].foldl sha256Update sha256Init)
        = sha256hex [1, 2, 3]) :=
  ⟨rfl, claim_C4_chunking_invariance [1, 2, 3] [[1], [2, 3]] rfl⟩

/-- Claim C5: `sha256_file` on the five bytes `b"hello"` returns the
expected digest string. -/
theorem claim_C5_hello_digest :
    sha256_file [104, 101, 108, 108, 111]
      = "2cf24dba5fb0a30e26e83b2ac5b9e29e1b161e5c1fa7425e73043362938b9824" := by
  rfl

/-- Claim C6, counterexample: the float `1e-07` (a perfectly possible
numeric hyperparameter value, e.g. a learning rate) is rendered by the
canonical serialization in scientific notation, contradicting the claim
that scientific notation never occurs. -/
theorem claim_C6_counterexample :
    sign_payload_msg (.jobj [("lr", .jfloat ⟨false, 1, -7⟩)])
      = "\x7b\"lr\":1e-07\x7d".data ∧
    'e' ∈ sign_payload_msg (.jobj [("lr", .jfloat ⟨false, 1, -7⟩)]) := by
  constructor
  · rfl
  · decide

/-- Claim C6, amended: integer renderings never use scientific notation
and never contain a locale separator `','`; float renderings never contain
`','` (the decimal separator is always `'.'`), always contain a `'.'` or
an `'e'`, and use scientific notation exactly when the decimal exponent
lies outside `[-4, 15]` — so the representation is fixed and unambiguous,
but scientific notation does occur for small or large magnitudes. -/
theorem claim_C6_amended :
    (∀ n : Int, 'e' ∉ intRepr n ∧ ',' ∉ intRepr n) ∧
    (∀ f : PyFloat, ',' ∉ floatRepr f ∧
      ('.' ∈ floatRepr f ∨ 'e' ∈ floatRepr f) ∧
      ('e' ∈ floatRepr f ↔ (sciExp f < -4 ∨ 16 ≤ sciExp f))) := by
  refine ⟨fun n => intRepr_no_sci_no_locale n, fun f => ⟨floatRepr_no_locale f, ?_, ?_⟩⟩
  · rcases floatMag_dot_or_e f with h | h
    · exact Or.inl ((mem_floatRepr_of_ne f '.' (by decide)).mpr h)
    · exact Or.inr ((mem_floatRepr_of_ne f 'e' (by decide)).mpr h)
  · rw [mem_floatRepr_of_ne f 'e' (by decide)]
    exact floatMag_e_iff f

/-- Claim C7 (code bug): when the `os.system("cp train.py repro_package/")`
copy fails (exit code 1), `build_repro_package` ignores the status, returns
a package missing `train.py`, and `submit_example` proceeds to hash, sign
and POST it successfully — the failure is silently swallowed. -/
theorem claim_C7_copy_failure_swallowed :
    build_repro_package exampleHyper 1 = .ok ⟨["hyperparameters.json"]⟩ ∧
    "train.py" ∉ (ReproPackage.files ⟨["hyperparameters.json"]⟩) ∧
    isOkE (submit_example exampleHyper 1 0 0) = true :=
  ⟨rfl, by decide, rfl⟩

/-- Claim C8: if the hyperparameters mapping is not JSON-serializable,
`submit_example` fails with the serialization error while building the
repro package, before the request is assembled or POSTed. -/
theorem claim_C8_not_serializable_aborts (hyper : List (String × PyVal))
    (cp : Nat) (ts n : Int) (h : tryToJVal hyper = none) :
    submit_example hyper cp ts n
      = .error "TypeError: object is not JSON serializable" := by
  unfold submit_example build_repro_package
  rw [h]

/-- Witness for C8 at a hyperparameter dict holding a non-serializable
value. -/
theorem claim_C8_witness :
    tryToJVal [("callback", PyVal.nonSerializable)] = none ∧
    submit_example [("callback", PyVal.nonSerializable)] 0 0 0
      = .error "TypeError: object is not JSON serializable" :=
  ⟨rfl, claim_C8_not_serializable_aborts _ 0 0 0 rfl⟩

/-- Claim C9: for every file content, `sha256_file` returns a string of
exactly 64 characters, each a lowercase hexadecimal digit. -/
theorem claim_C9_digest_shape (content : List Nat) :
    (sha256_file content).length = 64 ∧
    ∀ c ∈ (sha256_file content).data, isLowerHex c = true := by
  rw [sha256_file_eq]
  constructor
  · show ((sha256Words content).flatMap hex8).length = 64
    rw [flatMap_hex8_length,
      show (sha256Words content).length = 8 from foldl_compress_length _ _ rfl]
  · intro c hc
    have hc' : c ∈ (sha256Words content).flatMap hex8 := hc
    rcases List.mem_flatMap.mp hc' with ⟨w, _, hw⟩
    exact hex8_mem w c hw

/-- Claim C10: the payload part of the wire unit (`json.dumps` with default
separators) is never byte-identical to the canonical bytes that were
signed (`json.dumps` with `sort_keys=True, separators=(',', ':')`): the
default rendering of the seven-field payload object is strictly longer. -/
theorem claim_C10_wire_differs_from_signed (c : Claim) :
    dumpsDefault (claimToJVal c) ≠ canonBytes c := by
  intro h
  have hlen := congrArg List.length h
  have h1 : (serV [','] [':'] (claimToJVal c)).length
      < (dumpsDefault (claimToJVal c)).length :=
    lenLt_obj ("task_id", .jstr c.task_id) _
  have h2 : (canonBytes c).length = (serV [','] [':'] (claimToJVal c)).length :=
    lenSort_V (claimToJVal c)
  omega
